import Mathlib

/-!
A formal model of the repoctr project-discovery and LOC-counting engine.

The Go source is shallowly embedded: paths are modelled as lists of
components (a clean relative path `"a/b"` becomes `["a", "b"]`, and the
root path `"."` becomes `[]`); Go byte strings are Lean `String`s with
character-list based helpers mirroring the `strings` package for the ASCII
inputs the tool works on; Go maps used as sets become lists with membership
lookups; in-place mutation of `Project.Children` pointers is made explicit
by identifying projects with their index in the input list and threading a
`kids : Nat → List Nat` table through the hierarchy builder.

External collaborators of the repository (the Go standard library glob
matcher `filepath.Match`, and the XML/JSON/TOML/YAML parsing libraries the
detectors call) are parameters of the embedding: the repository's own logic
is modelled exactly, while those library calls are oracle functions the
theorems quantify over.
-/

namespace RepoCtr

/-! ## Character and string helpers (models of Go `strings` functions) -/

/-- ASCII lower-casing of a single character, as `strings.ToLower` acts on
the ASCII inputs used by the tool. -/
def asciiLower (c : Char) : Char :=
  if 'A' ≤ c ∧ c ≤ 'Z' then Char.ofNat (c.toNat + 32) else c

/-- Model of `strings.ToLower` restricted to ASCII. -/
def lowerStr (s : String) : String := ⟨s.toList.map asciiLower⟩

/-- Does list `a` occur at the head of list `b`? (model of `strings.HasPrefix`
on character lists). -/
def leadMatch [DecidableEq α] : List α → List α → Bool
  | [], _ => true
  | _ :: _, [] => false
  | a :: as, b :: bs => a = b && leadMatch as bs

/-- Does list `a` occur at the tail end of list `b`? (model of
`strings.HasSuffix` on character lists). -/
def tailMatch [DecidableEq α] (a b : List α) : Bool :=
  leadMatch a.reverse b.reverse

/-- Does list `a` occur contiguously anywhere inside list `b`? (model of
`strings.Contains` on character lists). -/
def infixMatch [DecidableEq α] : List α → List α → Bool
  | a, [] => a.isEmpty
  | a, b :: bs => leadMatch a (b :: bs) || infixMatch a bs

/-- Model of `strings.Contains`. -/
def strContains (s sub : String) : Bool := infixMatch sub.toList s.toList

/-- Model of `strings.HasPrefix`. -/
def strHasPre (s pre : String) : Bool := leadMatch pre.toList s.toList

/-- Model of `strings.HasSuffix`. -/
def strHasSuf (s suf : String) : Bool := tailMatch suf.toList s.toList

/-- Model of `strings.TrimSuffix`. -/
def trimSuf (s suf : String) : String :=
  if strHasSuf s suf then ⟨s.toList.take (s.toList.length - suf.toList.length)⟩ else s

/-- Characters treated as white space by Go's `unicode.IsSpace` in the
Latin-1 range (the full Unicode space classes are not reproduced; the
repository only meets ASCII white space). -/
def goIsSpace (c : Char) : Bool :=
  c = ' ' || c = '\t' || c = '\n' || c = '\x0b' || c = '\x0c' || c = '\r' ||
  c = '\x85' || c = '\xa0'

/-- Model of `strings.TrimSpace`. -/
def goTrimSpace (s : String) : String :=
  ⟨(s.toList.dropWhile goIsSpace).reverse.dropWhile goIsSpace |>.reverse⟩

/-- Lexicographic comparison of character lists by code point; on the
UTF-8 strings Go handles this is exactly Go's byte-wise `<` on strings. -/
def charListLt : List Char → List Char → Bool
  | [], [] => false
  | [], _ :: _ => true
  | _ :: _, [] => false
  | a :: as, b :: bs => a < b || (a = b && charListLt as bs)

/-- Go string `<`. -/
def strLt (a b : String) : Bool := charListLt a.toList b.toList

/-- Count occurrences of a character (model of `strings.Count` with a
single-character separator argument). -/
def countChar (c : Char) (l : List Char) : Nat := l.count c

/-- The extension of a file name: the suffix starting at the final dot, or
`""` when there is no dot (model of `filepath.Ext` on a base name). -/
def extChars : List Char → List Char
  | [] => []
  | c :: rest =>
    match extChars rest with
    | e :: es => e :: es
    | [] => if c = '.' then c :: rest else []

/-- Model of `filepath.Ext` applied to the last path component. -/
def extOf (s : String) : String := ⟨extChars s.toList⟩

/-! ## Paths

A clean relative path is a list of components; `[]` is the path `"."`.
`filepath.Dir` drops the last component and `filepath.Base` takes it. -/

/-- The character rendering of a component path (what the Go code stores in
its path strings). -/
def joinSlash : List (List Char) → List Char
  | [] => []
  | [x] => x
  | x :: y :: ys => x ++ '/' :: joinSlash (y :: ys)

/-- The path string of a component list: `[]` renders as `"."`. -/
def pathChars (p : List String) : List Char :=
  if p.isEmpty then ['.'] else joinSlash (p.map String.toList)

/-- The path string as a `String`. -/
def pathStr (p : List String) : String := ⟨pathChars p⟩

/-- Model of `filepath.Base`: the last component, or `"."` for the root. -/
def baseComp (p : List String) : String :=
  match p.getLast? with
  | some c => c
  | none => "."

/-- Model of `filepath.Dir`: drop the last component. -/
def dirComps (p : List String) : List String := p.dropLast

/-- Is `a` a component-wise leading part of `b`? -/
def listLead [DecidableEq α] : List α → List α → Bool
  | [], _ => true
  | _ :: _, [] => false
  | a :: as, b :: bs => a = b && listLead as bs

/-- Model of `filepath.Rel(root, path)` followed by the code's error
fallback (`relPath = path` when `path` does not sit under `root`). -/
def relComps (root p : List String) : List String :=
  if listLead root p then p.drop root.length else p

/-- The last `/`-separated segment of a rendered path (model of
`filepath.Base` applied to a relative path string). -/
def baseChars (l : List Char) : List Char :=
  match l.splitOn '/' with
  | [] => []
  | s :: ss => (s :: ss).getLast (by simp)

/-- A clean path component: non-empty, not `"."`, and free of separators.
The paths the walker produces satisfy this. -/
def CleanComp (c : String) : Prop := c ≠ "" ∧ c ≠ "." ∧ '/' ∉ c.toList

/-- All components of a path are clean. -/
def CleanPath (p : List String) : Prop := ∀ c ∈ p, CleanComp c

instance : DecidablePred CleanComp := fun c => by
  unfold CleanComp; infer_instance

instance (p : List String) : Decidable (CleanPath p) := by
  unfold CleanPath; infer_instance

/-! ## Data model (`pkg/models`) -/

/-- Runtime type tags are Go strings; the fixed enumeration of
`pkg/models/project.go`. -/
def RuntimeDotNet : String := ".NET"

def RuntimePython : String := "Python"

def RuntimeGo : String := "Go"

def RuntimeJava : String := "Java"

def RuntimeTypeScript : String := "TypeScript"

def RuntimeJavaScript : String := "JavaScript"

def RuntimeDart : String := "Dart"

def RuntimeCpp : String := "C/C++"

def RuntimeRust : String := "Rust"

/-- `models.Runtime`. -/
structure Runtime where
  type : String
  version : String
  deriving DecidableEq, Repr

/-- `models.Project`. Paths are component lists; `children` appears in the
structure for the config-merge model, while the hierarchy builder works on
project indices to make Go's pointer sharing explicit. -/
structure Project where
  name : String
  path : List String
  runtime : Runtime
  manifestFile : String
  sourcePaths : List (List String)
  srcIgnorePaths : List (List String)
  excludePatterns : List String
  children : List Project

instance : Inhabited Project :=
  ⟨{ name := "", path := [], runtime := { type := "", version := "" }, manifestFile := ""
     sourcePaths := [], srcIgnorePaths := [], excludePatterns := [], children := [] }⟩

/-- `models.ProjectOverride`. -/
structure ProjectOverride where
  excludePatterns : List String
  srcIgnorePaths : List (List String)
  sourcePaths : List (List String)
  deriving Repr

/-- `models.RepoCtrConfig`; the override map is an association list keyed by
project path. -/
structure RepoCtrConfig where
  globalExcludes : List String
  projectOverrides : List (List String × ProjectOverride)
  deriving Repr

/-- `models.FileStats`. -/
structure FileStats where
  path : List String
  lines : Nat
  blankLines : Nat
  codeLines : Nat
  size : Nat
  deriving DecidableEq, Repr

end RepoCtr

namespace RepoCtr

/-! ## Ignore matcher (`internal/ignore`)

`filepath.Match`, the Go standard library glob matcher, is an external
collaborator; it appears as the oracle parameter `fpMatch` below (its Go
error result is absorbed into `false`, exactly as the call sites do with
`err == nil && matched`). -/

/-- A parsed gitignore rule. -/
structure GitignoreRule where
  pattern : String
  negate : Bool
  dirOnly : Bool
  anchored : Bool
  deriving DecidableEq, Repr

/-- The body of the `parseGitignore` scanner loop for one line: trim, skip
blank lines and comments, then read the `!` negation marker, the trailing
`/` directory-only marker, and the anchoring `/`. -/
def parseRuleLine (raw : String) : Option GitignoreRule :=
  let line := goTrimSpace raw
  if line = "" || strHasPre line "#" then none
  else
    let negate := strHasPre line "!"
    let l1 := if negate then ⟨line.toList.drop 1⟩ else line
    let dirOnly := strHasSuf l1 "/"
    let l2 := if dirOnly then trimSuf l1 "/" else l1
    let anchored := strContains l2 "/"
    some ⟨l2, negate, dirOnly, anchored⟩

/-- `parseGitignore` over the lines of a `.gitignore` file. -/
def parseGitignoreLines (lines : List String) : List GitignoreRule :=
  lines.filterMap parseRuleLine

/-- `ignore.DefaultIgnorePatterns`. -/
def DefaultIgnorePatterns : List String :=
  [".git", ".svn", ".hg",
   "node_modules", "vendor",
   "__pycache__", ".tox", ".nox", ".eggs", "*.egg-info", "__pypackages__",
   "venv", ".venv", "env", ".env", "ENV", "virtualenv", ".virtualenv",
   "pythonenv", ".pythonenv", ".conda",
   "target", "build", "dist", ".gradle",
   ".idea", ".vscode", ".vs",
   "bin", "obj",
   ".DS_Store", "Thumbs.db"]

/-- `ignore.DefaultIgnoreExtensions`. -/
def DefaultIgnoreExtensions : List String :=
  [".pyc", ".pyo", ".class", ".o", ".a", ".so", ".dylib"]

/-- `ignore.Matcher`; the Go `map[string]bool` default set is the key list
with membership lookups. -/
structure Matcher where
  rootDir : List String
  defaultIgnores : List String
  gitignoreRules : List GitignoreRule
  deriving Repr

/-- `ignore.NewMatcher`: the built-in set plus the parsed `.gitignore` at
the root, when that file exists (absence degrades to built-ins only). -/
def newMatcher (rootDir : List String) (gitignore : Option (List String)) : Matcher :=
  { rootDir := rootDir
    defaultIgnores := DefaultIgnorePatterns
    gitignoreRules :=
      match gitignore with
      | some lines => parseGitignoreLines lines
      | none => [] }

/-- Modelled from the spec, the source of `Clone` not being under `src/`
(only its call sites and change log entry are): "produces an independent
copy so a caller may layer additional patterns without mutating the shared
base matcher". In this pure embedding an independent copy is the value
itself; mutation shows up as the returned matcher of `addPatterns`. -/
def Matcher.clone (m : Matcher) : Matcher := m

/-- Modelled from the spec, the source of `AddPatterns` not being under
`src/`: "appends additional gitignore-style rules (parsed with the same
rule model) to a matcher instance". -/
def Matcher.addPatterns (m : Matcher) (patterns : List String) : Matcher :=
  { m with gitignoreRules := m.gitignoreRules ++ parseGitignoreLines patterns }

/-- Model of `strings.TrimPrefix` on character lists. -/
def trimPreChars (pre l : List Char) : List Char :=
  if leadMatch pre l then l.drop pre.length else l

/-- Model of `strings.TrimSuffix` on character lists. -/
def trimSufChars (suf l : List Char) : List Char :=
  if tailMatch suf l then l.take (l.length - suf.length) else l

/-- `strings.Split(pattern, "**")`: split on each occurrence of `**`. -/
def splitStarStar : List Char → List (List Char)
  | [] => [[]]
  | '*' :: '*' :: rest => [] :: splitStarStar rest
  | c :: rest =>
    match splitStarStar rest with
    | p :: ps => (c :: p) :: ps
    | [] => [[c]]

/-- `ignore.matchPattern`: the `**` special case, then exact match, then
the glob oracle against the whole path, then against the base name, then
the directory-contents `pattern + "/"` leading match. -/
def matchPattern (fpMatch : String → String → Bool) (pattern path : String) : Bool :=
  let starstarResult : Option Bool :=
    if infixMatch ['*', '*'] pattern.toList then
      match splitStarStar pattern.toList with
      | [p0, p1] =>
        let pre := trimSufChars ['/'] p0
        let suf := trimPreChars ['/'] p1
        if pre.isEmpty && suf.isEmpty then some true
        else if !pre.isEmpty && !leadMatch pre path.toList then some false
        else if !suf.isEmpty && !tailMatch suf path.toList then some false
        else some true
      | _ => none
    else none
  match starstarResult with
  | some b => b
  | none =>
    if pattern = path then true
    else if fpMatch pattern path then true
    else if fpMatch pattern ⟨baseChars path.toList⟩ then true
    else leadMatch (pattern.toList ++ ['/']) path.toList

/-- One iteration of the `matchGitignore` loop: whether the rule matches
the path at all (a directory-only rule is skipped for non-directories; an
anchored rule is tried against the whole relative path; a non-anchored
rule against the whole path or its base name). -/
def ruleApplies (fpMatch : String → String → Bool) (rule : GitignoreRule)
    (relPath : String) (isDir : Bool) : Bool :=
  if rule.dirOnly && !isDir then false
  else if rule.anchored then matchPattern fpMatch rule.pattern relPath
  else
    matchPattern fpMatch rule.pattern relPath ||
    matchPattern fpMatch rule.pattern ⟨baseChars relPath.toList⟩

/-- `ignore.matchGitignore`: fold over the rules in file order, each
matching rule overwriting the ignored state with the negation of its
negate flag. -/
def matchGitignore (fpMatch : String → String → Bool) (rules : List GitignoreRule)
    (relPath : String) (isDir : Bool) : Bool :=
  rules.foldl
    (fun ignored rule => if ruleApplies fpMatch rule relPath isDir then !rule.negate else ignored)
    false

/-- `Matcher.ShouldIgnore` with the `os.Stat` directory answer supplied by
the caller (the walker's file system model provides it). -/
def Matcher.shouldIgnore (m : Matcher) (fpMatch : String → String → Bool)
    (isDir : Bool) (path : List String) : Bool :=
  let relPath := relComps m.rootDir path
  let base := baseComp path
  if m.defaultIgnores.contains base then true
  else if !isDir && DefaultIgnoreExtensions.contains (lowerStr (extOf (baseComp path))) then true
  else matchGitignore fpMatch m.gitignoreRules (pathStr relPath) isDir

/-- `Matcher.ShouldIgnoreFile`: the same checks without a directory stat;
gitignore rules are evaluated with `isDir = false`. -/
def Matcher.shouldIgnoreFile (m : Matcher) (fpMatch : String → String → Bool)
    (path : List String) : Bool :=
  let relPath := relComps m.rootDir path
  let base := baseComp path
  if m.defaultIgnores.contains base then true
  else if DefaultIgnoreExtensions.contains (lowerStr (extOf (baseComp path))) then true
  else matchGitignore fpMatch m.gitignoreRules (pathStr relPath) false

end RepoCtr

namespace RepoCtr

/-! ## Detectors (`internal/detector`)

Each detector's own logic — markers, dispatch, fallbacks, and its simple
`regexp` patterns (reproduced as explicit character scanners) — is embedded
directly.  The external XML/JSON/TOML/YAML parsing libraries, the
`tsconfig.json` file-system probe, and the two Makefile regexes that use
word boundaries are oracle parameters collected in `Oracles`. -/

/-- Go `regexp` character class `\s`. -/
def reSpace (c : Char) : Bool :=
  c = '\t' || c = '\n' || c = '\x0c' || c = '\r' || c = ' '

/-- Go `regexp` character class `\w`. -/
def reWord (c : Char) : Bool :=
  ('0' ≤ c && c ≤ '9') || ('a' ≤ c && c ≤ 'z') || ('A' ≤ c && c ≤ 'Z') || c = '_'

/-- Decimal digit test (`\d`). -/
def reDigit (c : Char) : Bool := '0' ≤ c && c ≤ '9'

/-- The single-quote character. -/
def sQuote : Char := Char.ofNat 39

/-- The double-quote character. -/
def dQuote : Char := Char.ofNat 34

/-- Leftmost-match driver: try a match-at-this-position function at every
position, as `regexp.FindStringSubmatch` does. -/
def scanFor (f : List Char → Option α) : List Char → Option α
  | [] => f []
  | c :: rest =>
    match f (c :: rest) with
    | some x => some x
    | none => scanFor f rest

/-- Greedy `\d+` at the head of the list: the digits and the remainder. -/
def takeDigits (l : List Char) : List Char × List Char :=
  (l.takeWhile reDigit, l.dropWhile reDigit)

/-- Greedy `\.?\d*` at the head of the list. -/
def optDotDigits (l : List Char) : List Char × List Char :=
  match l with
  | '.' :: r => let (d, r2) := takeDigits r; ('.' :: d, r2)
  | _ => ([], l)

/-- `\d+\.?\d*` at the head of the list (the .NET TFM number shape). -/
def numDotNum (l : List Char) : Option (List Char) :=
  let (d1, r1) := takeDigits l
  if d1.isEmpty then none
  else
    let (a, _) := optDotDigits r1
    some (d1 ++ a)

/-- `(\d+\.?\d*\.?\d*)` matched at the leftmost position (the Python
version number shape). -/
def findNumDDD (l : List Char) : Option (List Char) :=
  scanFor
    (fun s =>
      let (d1, r1) := takeDigits s
      if d1.isEmpty then none
      else
        let (a, r2) := optDotDigits r1
        let (b, _) := optDotDigits r2
        some (d1 ++ a ++ b))
    l

/-- `(\d+\.\d+\.?\d*)` matched at the leftmost position (the Dart version
number shape). -/
def findDartNum (l : List Char) : Option (List Char) :=
  scanFor
    (fun s =>
      let (d1, r1) := takeDigits s
      if d1.isEmpty then none
      else
        match r1 with
        | '.' :: r2 =>
          let (d2, r3) := takeDigits r2
          if d2.isEmpty then none
          else
            let (a, _) := optDotDigits r3
            some (d1 ++ '.' :: d2 ++ a)
        | _ => none)
    l

/-- `pre` as a literal followed by `\d+\.?\d*`, anchored at the start
(`^net(...)`, `^netcoreapp(...)`, `^netstandard(...)`). -/
def matchPreNum (pre : String) (t : List Char) : Option (List Char) :=
  if leadMatch pre.toList t then numDotNum (t.drop pre.toList.length) else none

/-- `detector.extractDotNetVersion`. -/
def extractDotNetVersion (tfm : String) : String :=
  let t := (lowerStr (goTrimSpace tfm)).toList
  match matchPreNum "net" t with
  | some num => ⟨num⟩
  | none =>
    match matchPreNum "netcoreapp" t with
    | some num => ⟨num⟩
    | none =>
      match matchPreNum "netstandard" t with
      | some num => ⟨"standard ".toList ++ num⟩
      | none => ⟨t⟩

/-- `detector.cleanPythonVersion`. -/
def cleanPythonVersion (v0 : String) : String :=
  let v := goTrimSpace v0
  if v = "" then ""
  else
    match findNumDDD v.toList with
    | some num =>
      if strHasPre v ">=" || strHasPre v "^" || strHasPre v ">" then ⟨num ++ ['+']⟩ else ⟨num⟩
    | none => v

/-- `detector.cleanDartVersion`. -/
def cleanDartVersion (v : String) : String :=
  match findDartNum v.toList with
  | some num => ⟨num ++ ['+']⟩
  | none => v

/-- `module\s+(\S+)` (the go.mod module path). -/
def scanModuleName (l : List Char) : Option String :=
  scanFor
    (fun s =>
      if leadMatch "module".toList s then
        let r := s.drop 6
        if (r.takeWhile reSpace).isEmpty then none
        else
          let r2 := r.dropWhile reSpace
          let nm := r2.takeWhile (fun c => !reSpace c)
          if nm.isEmpty then none else some ⟨nm⟩
      else none)
    l

/-- `go\s+(\d+\.\d+)` (the go.mod version directive). -/
def scanGoVersion (l : List Char) : Option String :=
  scanFor
    (fun s =>
      if leadMatch "go".toList s then
        let r := s.drop 2
        if (r.takeWhile reSpace).isEmpty then none
        else
          let r2 := r.dropWhile reSpace
          let (d1, r3) := takeDigits r2
          if d1.isEmpty then none
          else
            match r3 with
            | '.' :: r4 =>
              let (d2, _) := takeDigits r4
              if d2.isEmpty then none else some ⟨d1 ++ '.' :: d2⟩
            | _ => none
      else none)
    l

/-- `key\s*=\s*["']([^"']+)["']` (setup.py name / python_requires). -/
def scanKeyQuoted (key : String) (l : List Char) : Option String :=
  scanFor
    (fun s =>
      if leadMatch key.toList s then
        let r := (s.drop key.toList.length).dropWhile reSpace
        match r with
        | '=' :: r2 =>
          match r2.dropWhile reSpace with
          | q :: r3 =>
            if q = dQuote || q = sQuote then
              let body := r3.takeWhile (fun c => c ≠ dQuote && c ≠ sQuote)
              let rest := r3.dropWhile (fun c => c ≠ dQuote && c ≠ sQuote)
              if body.isEmpty then none
              else
                match rest with
                | c :: _ => if c = dQuote || c = sQuote then some ⟨body⟩ else none
                | [] => none
            else none
          | [] => none
        | _ => none
      else none)
    l

/-- `sourceCompatibility\s*=\s*['"]?(\d+)['"]?` (Gradle). -/
def scanSourceCompat (l : List Char) : Option String :=
  scanFor
    (fun s =>
      if leadMatch "sourceCompatibility".toList s then
        let r := (s.drop "sourceCompatibility".toList.length).dropWhile reSpace
        match r with
        | '=' :: r2 =>
          let r3 := r2.dropWhile reSpace
          let r4 := match r3 with
            | q :: rq => if q = dQuote || q = sQuote then rq else r3
            | [] => r3
          let (d, _) := takeDigits r4
          if d.isEmpty then none else some ⟨d⟩
        | _ => none
      else none)
    l

/-- `JavaVersion\.VERSION_(\d+)` (Gradle). -/
def scanJavaVersionU (l : List Char) : Option String :=
  scanFor
    (fun s =>
      if leadMatch "JavaVersion.VERSION_".toList s then
        let (d, _) := takeDigits (s.drop "JavaVersion.VERSION_".toList.length)
        if d.isEmpty then none else some ⟨d⟩
      else none)
    l

/-- `JavaLanguageVersion\.of\((\d+)\)` (Gradle). -/
def scanJavaLangVersion (l : List Char) : Option String :=
  scanFor
    (fun s =>
      if leadMatch "JavaLanguageVersion.of(".toList s then
        let (d, r) := takeDigits (s.drop "JavaLanguageVersion.of(".toList.length)
        if d.isEmpty then none
        else
          match r with
          | ')' :: _ => some ⟨d⟩
          | _ => none
      else none)
    l

/-- `project\s*\(\s*(\w+)` (CMake). -/
def scanProjectWord (l : List Char) : Option String :=
  scanFor
    (fun s =>
      if leadMatch "project".toList s then
        let r := (s.drop 7).dropWhile reSpace
        match r with
        | '(' :: r2 =>
          let w := (r2.dropWhile reSpace).takeWhile reWord
          if w.isEmpty then none else some ⟨w⟩
        | _ => none
      else none)
    l

/-- `lit` followed by `\s+(\d+)` (CMake standard directives). -/
def scanLitSpaceNum (lit : String) (l : List Char) : Option String :=
  scanFor
    (fun s =>
      if leadMatch lit.toList s then
        let r := s.drop lit.toList.length
        if (r.takeWhile reSpace).isEmpty then none
        else
          let (d, _) := takeDigits (r.dropWhile reSpace)
          if d.isEmpty then none else some ⟨d⟩
      else none)
    l

/-- `lit` followed immediately by `(\d+)` (`-std=` flags, note
`-std=c\+\+(\d+)` and `-std=c(\d+)`). -/
def scanLitNum (lit : String) (l : List Char) : Option String :=
  scanFor
    (fun s =>
      if leadMatch lit.toList s then
        let (d, _) := takeDigits (s.drop lit.toList.length)
        if d.isEmpty then none else some ⟨d⟩
      else none)
    l

/-- `project\s*\(\s*'([^']+)'` (Meson). -/
def scanMesonName (l : List Char) : Option String :=
  scanFor
    (fun s =>
      if leadMatch "project".toList s then
        let r := (s.drop 7).dropWhile reSpace
        match r with
        | '(' :: r2 =>
          match r2.dropWhile reSpace with
          | q :: r3 =>
            if q = sQuote then
              let body := r3.takeWhile (fun c => c ≠ sQuote)
              let rest := r3.dropWhile (fun c => c ≠ sQuote)
              if body.isEmpty then none
              else
                match rest with
                | c :: _ => if c = sQuote then some ⟨body⟩ else none
                | [] => none
            else none
          | [] => none
        | _ => none
      else none)
    l

/-- `<RootNamespace>([^<]+)</RootNamespace>` (vcxproj). -/
def scanRootNamespace (l : List Char) : Option String :=
  scanFor
    (fun s =>
      if leadMatch "<RootNamespace>".toList s then
        let r := s.drop "<RootNamespace>".toList.length
        let body := r.takeWhile (fun c => c ≠ '<')
        let rest := r.dropWhile (fun c => c ≠ '<')
        if body.isEmpty then none
        else if leadMatch "</RootNamespace>".toList rest then some ⟨body⟩ else none
      else none)
    l

/-- One `<PropertyGroup>` of a parsed project file. -/
structure PropGroup where
  targetFramework : String
  targetFrameworks : String
  deriving Repr

/-- Parsed `pom.xml` fields the Java detector reads. -/
structure PomParsed where
  artifactId : String
  name : String
  javaVersion : String
  mavenCompilerSource : String
  deriving Repr

/-- Parsed `pyproject.toml` fields the Python detector reads. -/
structure PyprojParsed where
  projectName : String
  requiresPython : String
  poetryName : String
  poetryPython : String
  deriving Repr

/-- Parsed `package.json` fields the JavaScript detector reads; the
dependency maps are key sets. -/
structure PkgParsed where
  name : String
  enginesNode : String
  deps : List String
  devDeps : List String
  deriving Repr

/-- Parsed `Cargo.toml` fields the Rust detector reads. -/
structure CargoParsed where
  name : String
  rustVersion : String
  edition : String
  deriving Repr

/-- Parsed `pubspec.yaml` fields the Dart detector reads. -/
structure PubspecParsed where
  name : String
  sdk : String
  deriving Repr

/-- The external collaborators of the detector set: structured parsers
(`none` models a parse error), the `tsconfig.json` existence probe, and
the two Makefile regexes with word boundaries,
`\b(gcc|g\+\+|clang|clang\+\+)\s+.*-[co]\b` and
`\b(CFLAGS|CXXFLAGS|CPPFLAGS)\s*[:+]?=`. -/
structure Oracles where
  parseCsproj : String → Option (List PropGroup)
  parsePom : String → Option PomParsed
  parsePyproject : String → Option PyprojParsed
  parsePackageJson : String → Option PkgParsed
  parseCargo : String → Option CargoParsed
  parsePubspec : String → Option PubspecParsed
  tsconfigExists : List String → Bool
  reCompilerCall : String → Bool
  reCBuildVars : String → Bool

end RepoCtr

namespace RepoCtr

/-- The detection result type: the Go signature is
`(*models.Project, error)`; every claim about the error branch needs the
error component to be visible, so detectors return
`Except String (Option Project)`. -/
abbrev DetectResult := Except String (Option Project)

/-- `dotNetDetector.createProject`. -/
def dotnetCreateProject (path : List String) (version : String) : Project :=
  let dir := dirComps path
  let ext := lowerStr (extOf (baseComp path))
  let name :=
    if ext = ".csproj" || ext = ".fsproj" || ext = ".vbproj"
    then trimSuf (baseComp path) ext
    else baseComp dir
  { name := name
    path := dir
    runtime := { type := RuntimeDotNet, version := version }
    manifestFile := baseComp path
    sourcePaths := [[]]
    srcIgnorePaths := []
    excludePatterns := []
    children := [] }

/-- The `PropertyGroups` loop of `detectProjectFile`: the first group with
a `TargetFramework` wins; a group with only `TargetFrameworks` contributes
the first `;`-separated entry; a group with neither is skipped. -/
def dotnetVersionOf : List PropGroup → String
  | [] => ""
  | pg :: rest =>
    if pg.targetFramework ≠ "" then extractDotNetVersion pg.targetFramework
    else if pg.targetFrameworks ≠ "" then
      extractDotNetVersion ⟨pg.targetFrameworks.toList.takeWhile (· ≠ ';')⟩
    else dotnetVersionOf rest

/-- `dotNetDetector.detectProjectFile`. -/
def detectProjectFile (O : Oracles) (path : List String) (content : String) : DetectResult :=
  if !strContains content "<Project" then .ok none
  else
    match O.parseCsproj content with
    | none => .ok (some (dotnetCreateProject path ""))
    | some groups => .ok (some (dotnetCreateProject path (dotnetVersionOf groups)))

/-- `dotNetDetector.detectSolutionFile`. -/
def detectSolutionFile (path : List String) (content : String) : DetectResult :=
  if !strContains content "Microsoft Visual Studio" then .ok none
  else
    if !(strContains content ".csproj" || strContains content ".fsproj" ||
         strContains content ".vbproj") then .ok none
    else .ok (some (dotnetCreateProject path ""))

/-- `dotNetDetector.Detect`. -/
def dotnetDetect (O : Oracles) (path : List String) (content : String) : DetectResult :=
  let ext := lowerStr (extOf (baseComp path))
  if ext = ".csproj" || ext = ".fsproj" || ext = ".vbproj" then detectProjectFile O path content
  else if ext = ".sln" then detectSolutionFile path content
  else .ok none

/-- `pythonDetector.createProject`. -/
def pythonCreateProject (path : List String) (name0 version : String) : Project :=
  let dir := dirComps path
  { name := if name0 = "" then baseComp dir else name0
    path := dir
    runtime := { type := RuntimePython, version := version }
    manifestFile := baseComp path
    sourcePaths := [["src"], []]
    srcIgnorePaths := []
    excludePatterns := []
    children := [] }

/-- `pythonDetector.detectPyprojectToml`. -/
def detectPyprojectToml (O : Oracles) (path : List String) (content : String) : DetectResult :=
  match O.parsePyproject content with
  | none => .ok (some (pythonCreateProject path "" ""))
  | some pp =>
    let name := if pp.projectName = "" then pp.poetryName else pp.projectName
    let v0 := if pp.requiresPython = "" then pp.poetryPython else pp.requiresPython
    .ok (some (pythonCreateProject path name (cleanPythonVersion v0)))

/-- `pythonDetector.detectSetupPy`. -/
def detectSetupPy (path : List String) (content : String) : DetectResult :=
  if !(strContains content "setup(" || strContains content "setup (") then .ok none
  else
    let name := (scanKeyQuoted "name" content.toList).getD ""
    let version :=
      match scanKeyQuoted "python_requires" content.toList with
      | some v => cleanPythonVersion v
      | none => ""
    .ok (some (pythonCreateProject path name version))

/-- `pythonDetector.detectRequirementsTxt`. -/
def detectRequirementsTxt (path : List String) : DetectResult :=
  .ok (some (pythonCreateProject path "" ""))

/-- `pythonDetector.Detect`. -/
def pythonDetect (O : Oracles) (path : List String) (content : String) : DetectResult :=
  if baseComp path = "pyproject.toml" then detectPyprojectToml O path content
  else if baseComp path = "setup.py" then detectSetupPy path content
  else if baseComp path = "requirements.txt" then detectRequirementsTxt path
  else .ok none

/-- `goDetector.Detect`. -/
def goDetect (path : List String) (content : String) : DetectResult :=
  if baseComp path ≠ "go.mod" then .ok none
  else if !strContains content "module " then .ok none
  else
    let name0 :=
      match scanModuleName content.toList with
      | some nm => ⟨(nm.toList.splitOn '/').getLastD []⟩
      | none => ""
    let version := (scanGoVersion content.toList).getD ""
    let dir := dirComps path
    let name := if name0 = "" then baseComp dir else name0
    .ok (some
      { name := name
        path := dir
        runtime := { type := RuntimeGo, version := version }
        manifestFile := "go.mod"
        sourcePaths := [[]]
        srcIgnorePaths := [["vendor"]]
        excludePatterns := []
        children := [] })

/-- `javaDetector.createProject`. -/
def javaCreateProject (path : List String) (name0 version : String) : Project :=
  let dir := dirComps path
  { name := if name0 = "" then baseComp dir else name0
    path := dir
    runtime := { type := RuntimeJava, version := version }
    manifestFile := baseComp path
    sourcePaths := [["src", "main", "java"], ["src"]]
    srcIgnorePaths := [["target"], ["build"]]
    excludePatterns := []
    children := [] }

/-- `javaDetector.detectPomXml`. -/
def detectPomXml (O : Oracles) (path : List String) (content : String) : DetectResult :=
  if !strContains content "<project" then .ok none
  else
    match O.parsePom content with
    | none => .ok (some (javaCreateProject path "" ""))
    | some pom =>
      let name := if pom.name = "" then pom.artifactId else pom.name
      let version := if pom.javaVersion = "" then pom.mavenCompilerSource else pom.javaVersion
      .ok (some (javaCreateProject path name version))

/-- `javaDetector.detectGradle`: the three version regexes are tried in
order, the last successful one winning. -/
def detectGradle (path : List String) (content : String) : DetectResult :=
  if !strContains content "plugins" && !strContains content "apply plugin" &&
     !strContains content "dependencies" then .ok none
  else
    let v1 := (scanSourceCompat content.toList).getD ""
    let v2 := (scanJavaVersionU content.toList).getD v1
    let v3 := (scanJavaLangVersion content.toList).getD v2
    .ok (some (javaCreateProject path "" v3))

/-- `javaDetector.Detect`. -/
def javaDetect (O : Oracles) (path : List String) (content : String) : DetectResult :=
  if baseComp path = "pom.xml" then detectPomXml O path content
  else if baseComp path = "build.gradle" || baseComp path = "build.gradle.kts" then
    detectGradle path content
  else .ok none

/-- `javascriptDetector.createProject`. -/
def jsCreateProject (path : List String) (name0 version : String) (isTypeScript : Bool) : Project :=
  let dir := dirComps path
  { name := if name0 = "" then baseComp dir else name0
    path := dir
    runtime :=
      { type := if isTypeScript then RuntimeTypeScript else RuntimeJavaScript
        version := version }
    manifestFile := "package.json"
    sourcePaths := [["src"], ["lib"], []]
    srcIgnorePaths := [["node_modules"], ["dist"], ["build"]]
    excludePatterns := []
    children := [] }

/-- `javascriptDetector.isTypeScriptProject`. -/
def isTypeScriptProject (O : Oracles) (path : List String) (pkg : PkgParsed) : Bool :=
  O.tsconfigExists (dirComps path) ||
  pkg.deps.contains "typescript" ||
  pkg.devDeps.contains "typescript"

/-- `javascriptDetector.Detect`. -/
def javascriptDetect (O : Oracles) (path : List String) (content : String) : DetectResult :=
  if baseComp path ≠ "package.json" then .ok none
  else
    match O.parsePackageJson content with
    | none => .ok (some (jsCreateProject path "" "" false))
    | some pkg =>
      .ok (some (jsCreateProject path pkg.name pkg.enginesNode (isTypeScriptProject O path pkg)))

/-- `dartDetector.createProject`. -/
def dartCreateProject (path : List String) (name0 version : String) : Project :=
  let dir := dirComps path
  { name := if name0 = "" then baseComp dir else name0
    path := dir
    runtime := { type := RuntimeDart, version := version }
    manifestFile := "pubspec.yaml"
    sourcePaths := [["lib"], ["bin"]]
    srcIgnorePaths := [[".dart_tool"], ["build"]]
    excludePatterns := []
    children := [] }

/-- `dartDetector.Detect`. -/
def dartDetect (O : Oracles) (path : List String) (content : String) : DetectResult :=
  if baseComp path ≠ "pubspec.yaml" then .ok none
  else
    match O.parsePubspec content with
    | none => .ok (some (dartCreateProject path "" ""))
    | some ps =>
      let sdkVersion := if ps.sdk ≠ "" then cleanDartVersion ps.sdk else ""
      .ok (some (dartCreateProject path ps.name sdkVersion))

/-- `cppDetector.createProject`. -/
def cppCreateProject (path : List String) (name0 version : String) : Project :=
  let dir := dirComps path
  { name := if name0 = "" then baseComp dir else name0
    path := dir
    runtime := { type := RuntimeCpp, version := version }
    manifestFile := baseComp path
    sourcePaths := [["src"], ["include"], []]
    srcIgnorePaths := [["build"], ["cmake-build-debug"], ["cmake-build-release"]]
    excludePatterns := []
    children := [] }

/-- `cppDetector.detectCMake`. -/
def detectCMake (path : List String) (content : String) : DetectResult :=
  if !strContains content "cmake_minimum_required" && !strContains content "project(" then
    .ok none
  else
    let name := (scanProjectWord content.toList).getD ""
    let version :=
      match scanLitSpaceNum "CMAKE_CXX_STANDARD" content.toList with
      | some d => ⟨"C++".toList ++ d.toList⟩
      | none =>
        match scanLitSpaceNum "CMAKE_C_STANDARD" content.toList with
        | some d => ⟨'C' :: d.toList⟩
        | none => ""
    .ok (some (cppCreateProject path name version))

/-- `cppDetector.detectMakefile`. -/
def detectMakefile (O : Oracles) (path : List String) (content : String) : DetectResult :=
  let isCppMakefile :=
    strContains content "$(CC)" || strContains content "$(CXX)" ||
    O.reCompilerCall content ||
    strContains content "-std=c" ||
    O.reCBuildVars content
  if !isCppMakefile then .ok none
  else
    let version :=
      match scanLitNum "-std=c++" content.toList with
      | some d => ⟨"C++".toList ++ d.toList⟩
      | none =>
        match scanLitNum "-std=c" content.toList with
        | some d => ⟨'C' :: d.toList⟩
        | none => ""
    .ok (some (cppCreateProject path "" version))

/-- `cppDetector.detectMeson`. -/
def detectMeson (path : List String) (content : String) : DetectResult :=
  if !strContains content "project(" then .ok none
  else .ok (some (cppCreateProject path ((scanMesonName content.toList).getD "") ""))

/-- `cppDetector.detectVcxproj`. -/
def detectVcxproj (path : List String) (content : String) : DetectResult :=
  if !strContains content "<ClCompile" && !strContains content "Microsoft.Cpp" then .ok none
  else .ok (some (cppCreateProject path ((scanRootNamespace content.toList).getD "") ""))

/-- `cppDetector.Detect`. -/
def cppDetect (O : Oracles) (path : List String) (content : String) : DetectResult :=
  if baseComp path = "CMakeLists.txt" then detectCMake path content
  else if baseComp path = "Makefile" then detectMakefile O path content
  else if baseComp path = "meson.build" then detectMeson path content
  else if lowerStr (extOf (baseComp path)) = ".vcxproj" then detectVcxproj path content
  else .ok none

/-- `rustDetector.createProject`. -/
def rustCreateProject (path : List String) (name0 version : String) : Project :=
  let dir := dirComps path
  { name := if name0 = "" then baseComp dir else name0
    path := dir
    runtime := { type := RuntimeRust, version := version }
    manifestFile := "Cargo.toml"
    sourcePaths := [["src"]]
    srcIgnorePaths := [["target"]]
    excludePatterns := []
    children := [] }

/-- `rustDetector.Detect`. -/
def rustDetect (O : Oracles) (path : List String) (content : String) : DetectResult :=
  if baseComp path ≠ "Cargo.toml" then .ok none
  else
    match O.parseCargo content with
    | none => .ok (some (rustCreateProject path "" ""))
    | some cargo =>
      let version := if cargo.rustVersion = "" then cargo.edition else cargo.rustVersion
      .ok (some (rustCreateProject path cargo.name version))

/-- `detector.NewRegistry`: the fixed detector order, .NET first. -/
def registryDetectors (O : Oracles) : List (List String → String → DetectResult) :=
  [dotnetDetect O, pythonDetect O, goDetect, javaDetect O,
   javascriptDetect O, dartDetect O, cppDetect O, rustDetect O]

/-- The loop body of `Registry.DetectProject`: first non-nil result wins,
an error aborts. -/
def detectProjectList (ds : List (List String → String → DetectResult))
    (path : List String) (content : String) : DetectResult :=
  match ds with
  | [] => .ok none
  | d :: rest =>
    match d path content with
    | .error e => .error e
    | .ok (some p) => .ok (some p)
    | .ok none => detectProjectList rest path content

/-- `Registry.DetectProject`. -/
def registryDetectProject (O : Oracles) (path : List String) (content : String) : DetectResult :=
  detectProjectList (registryDetectors O) path content

end RepoCtr

namespace RepoCtr

/-! ## Hierarchy builder (`internal/discovery/hierarchy.go`)

Go's `Build` mutates the caller's `*models.Project` values: it appends to
their `Children` slices in place and inserts the pointers themselves into
the returned tree.  The embedding makes this explicit: projects are their
indices in the input list, and the children table `kids : Nat → List Nat`
is threaded through `Build`, starting from the projects' existing children
(`k0`).  `sort.Slice` is modelled by insertion sort: on pairwise distinct
paths the Go comparator is a strict total order, so every sorting
algorithm produces the same sequence. -/

/-- `strings.Count(path, string(filepath.Separator))` on the rendered
path. -/
def goDepth (p : List String) : Nat := countChar '/' (pathChars p)

/-- The `sort.Slice` comparator of `Build`: depth first, then the path
strings. -/
def buildLess (a b : List String) : Bool :=
  if goDepth a ≠ goDepth b then goDepth a < goDepth b else strLt (pathStr a) (pathStr b)

/-- Insert into a sorted list (insertion-sort step). -/
def insertLe (le : α → α → Bool) (x : α) : List α → List α
  | [] => [x]
  | y :: ys => if le x y then x :: y :: ys else y :: insertLe le x ys

/-- Insertion sort by a total boolean comparison. -/
def insSortBy (le : α → α → Bool) : List α → List α
  | [] => []
  | x :: xs => insertLe le x (insSortBy le xs)

/-- The sorted processing order of `Build`: entries are (input index,
path) pairs. -/
def sortEntries (entries : List (Nat × List String)) : List (Nat × List String) :=
  insSortBy (fun a b => !buildLess b.2 a.2) entries

/-- The state of the `Build` loop: the path map (most recent insertion
first, as Go map assignment overrides), the children table, and the root
list. -/
structure BState where
  pmap : List (List String × Nat)
  kids : Nat → List Nat
  roots : List Nat

/-- Go map lookup on the path map. -/
def lookupPath (pm : List (List String × Nat)) (q : List String) : Option Nat :=
  match pm.find? (fun e => decide (e.1 = q)) with
  | some e => some e.2
  | none => none

/-- The ancestry loop of `findNearestAncestor`: walk `filepath.Dir` chains
while the current path is not the root (`"."`, never `"/"` or `""` for the
clean relative paths Build receives). -/
def walkUpRev (pm : List (List String × Nat)) : List String → Option Nat
  | [] => none
  | c :: rest =>
    match lookupPath pm (c :: rest).reverse with
    | some p => some p
    | none => walkUpRev pm rest

/-- The ancestry loop on a path: `walkUpRev` runs on the reversed
component list so that each `filepath.Dir` step is structural; this
wrapper presents it on the path itself (see `walkUp_concat`). -/
def walkUp (pm : List (List String × Nat)) (current : List String) : Option Nat :=
  walkUpRev pm current.reverse

/-- The loop shape of `findNearestAncestor` on a non-root current path:
look the current path up, else continue at its parent directory. -/
theorem walkUp_concat (pm : List (List String × Nat)) (l : List String) (c : String) :
    walkUp pm (l ++ [c]) =
      (match lookupPath pm (l ++ [c]) with
       | some p => some p
       | none => walkUp pm l) := by
  simp only [walkUp, List.reverse_append, List.reverse_cons, List.reverse_nil,
    List.nil_append, List.singleton_append, walkUpRev, List.reverse_reverse,
    List.reverse_cons]

/-- `HierarchyBuilder.findNearestAncestor`. -/
def findNearestAncestor (path : List String) (pm : List (List String × Nat)) : Option Nat :=
  match walkUp pm (dirComps path) with
  | some p => some p
  | none => if path.isEmpty then none else lookupPath pm []

/-- One iteration of the `Build` loop: record the project in the path map,
then either attach it to its nearest ancestor's children or make it a
root. -/
def buildStep (s : BState) (e : Nat × List String) : BState :=
  let pm := (e.2, e.1) :: s.pmap
  match findNearestAncestor e.2 pm with
  | some parent =>
    { pmap := pm
      kids := fun j => if j = parent then s.kids j ++ [e.1] else s.kids j
      roots := s.roots }
  | none =>
    { pmap := pm, kids := s.kids, roots := s.roots ++ [e.1] }

/-- The `Build` loop over a prepared entry list. -/
def buildRun (k0 : Nat → List Nat) (entries : List (Nat × List String)) : BState :=
  entries.foldl buildStep { pmap := [], kids := k0, roots := [] }

/-- `HierarchyBuilder.Build` on the paths of the input projects, starting
from their current children table `k0`. -/
def hierarchyBuild (k0 : Nat → List Nat) (ps : List (List String)) : BState :=
  buildRun k0 (sortEntries ps.enum)

/-- `HierarchyBuilder.Flatten`: depth-first pre-order emission.  The Go
recursion runs on the acyclic pointer structure; the index embedding
supplies fuel, which the theorems instantiate above the forest depth so
the zero-fuel branch is never taken on built forests. -/
def flattenLevel (recurse : Nat → List Nat) : List Nat → List Nat
  | [] => []
  | i :: rest => i :: (recurse i ++ flattenLevel recurse rest)

/-- The nested flatten recursion, structurally on the fuel: each level
emits a project and then its children's subtrees. -/
def flattenAux (kids : Nat → List Nat) : Nat → List Nat → List Nat
  | 0, l => flattenLevel (fun _ => []) l
  | fuel + 1, l => flattenLevel (fun i => flattenAux kids fuel (kids i)) l

/-- `Flatten` applied to the result of `Build`. -/
def hierarchyFlatten (st : BState) (fuel : Nat) : List Nat :=
  flattenAux st.kids fuel st.roots

/-! ## Config merge (`internal/config`) -/

/-- Lookup in the override map of `.repoctrconfig.yaml`. -/
def lookupOverride (cfg : RepoCtrConfig) (path : List String) : Option ProjectOverride :=
  (cfg.projectOverrides.find? (fun e => decide (e.1 = path))).map (fun e => e.2)

/-- `config.applyConfigOverrides`: a non-empty override list replaces the
corresponding field entirely. -/
def applyConfigOverrides (project : Project) (cfg : Option RepoCtrConfig) : Project :=
  match cfg with
  | none => project
  | some c =>
    match lookupOverride c project.path with
    | none => project
    | some ov =>
      let p1 :=
        if ov.excludePatterns ≠ [] then { project with excludePatterns := ov.excludePatterns }
        else project
      let p2 :=
        if ov.srcIgnorePaths ≠ [] then { p1 with srcIgnorePaths := ov.srcIgnorePaths }
        else p1
      if ov.sourcePaths ≠ [] then { p2 with sourcePaths := ov.sourcePaths } else p2

/-- `config.mergeProject`. -/
def mergeProject (existing discovered : Project) : Project :=
  { name := discovered.name
    path := existing.path
    runtime := discovered.runtime
    manifestFile := discovered.manifestFile
    sourcePaths := discovered.sourcePaths
    srcIgnorePaths :=
      if existing.srcIgnorePaths ≠ [] then existing.srcIgnorePaths
      else discovered.srcIgnorePaths
    excludePatterns := existing.excludePatterns
    children := discovered.children }

/-- Go map insert with override (`m[p.Path] = p`). -/
def pmapInsert (m : List (List String × Project)) (k : List String) (v : Project) :
    List (List String × Project) :=
  m.filter (fun e => decide (e.1 ≠ k)) ++ [(k, v)]

/-- Go map lookup. -/
def pmapLookup (m : List (List String × Project)) (k : List String) : Option Project :=
  (m.find? (fun e => decide (e.1 = k))).map (fun e => e.2)

/-- Go map delete. -/
def pmapDelete (m : List (List String × Project)) (k : List String) :
    List (List String × Project) :=
  m.filter (fun e => decide (e.1 ≠ k))

/-- `config.buildProjectMap`. -/
def buildProjectMap (projects : List Project) : List (List String × Project) :=
  projects.foldl (fun m p => pmapInsert m p.path p) []

/-- One iteration of the discovered-projects loop of `MergeProjects`. -/
def mergeStep (cfg : Option RepoCtrConfig)
    (acc : List (List String × Project) × List Project) (d : Project) :
    List (List String × Project) × List Project :=
  match pmapLookup acc.1 d.path with
  | some e => (pmapDelete acc.1 d.path, acc.2 ++ [applyConfigOverrides (mergeProject e d) cfg])
  | none => (acc.1, acc.2 ++ [applyConfigOverrides d cfg])

/-- `config.MergeProjects`.  Go iterates the leftover map in unspecified
map order; the embedding uses the map's residual insertion order (the
merge theorems are membership statements, indifferent to this order). -/
def mergeProjects (discovered existing : List Project) (cfg : Option RepoCtrConfig) :
    List Project :=
  let fin := discovered.foldl (mergeStep cfg) (buildProjectMap existing, [])
  fin.2 ++ fin.1.map (fun e => applyConfigOverrides e.2 cfg)

end RepoCtr

namespace RepoCtr

/-! ## LOC counter (`internal/stats/counter.go`)

The file system under the scan root is a tree of named entries; absolute
paths are component lists from the scan root, so the counter's `rootDir`
is `[]`.  `filepath.WalkDir` visits a directory before its entries and
visits entries in lexical order; the model emits entries in their list
order, so a model file system lists each directory's entries the way
`WalkDir` would order them. -/

/-- A file-system entry: a file with its byte content, or a directory. -/
inductive FSEntry where
  | file (name : String) (content : String)
  | dir (name : String) (entries : List FSEntry)

/-- Entry name. -/
def FSEntry.name : FSEntry → String
  | .file n _ => n
  | .dir n _ => n

/-- Path lookup from an entry (model of `os.Stat` resolution). -/
def fsLookup : List String → FSEntry → Option FSEntry
  | [], e => some e
  | _ :: _, .file _ _ => none
  | c :: rest, .dir _ es =>
    match es.find? (fun e => decide (e.name = c)) with
    | some e2 => fsLookup rest e2
    | none => none

/-- `bufio` line scanning: drop one trailing carriage return. -/
def dropCR (l : List Char) : List Char :=
  if l.getLast? = some '\r' then l.dropLast else l

/-- The lines `bufio.Scanner` with `ScanLines` yields for a byte content:
split on newlines, no empty final token after a trailing newline, one
trailing `\r` stripped per line.  (The Go scanner errors out on a line
over its 1MB buffer, making the caller skip the file; no claim concerns
that ceiling and the model leaves it out.) -/
def goLines (content : String) : List String :=
  if content.toList.isEmpty then []
  else
    let pieces := content.toList.splitOn '\n'
    let pieces2 := if content.toList.getLast? = some '\n' then pieces.dropLast else pieces
    pieces2.map (fun l => ⟨dropCR l⟩)

/-- `Counter.countFile`: line totals from the scan, the size from the
file's own metadata — the byte length of its content. -/
def countFile (path : List String) (content : String) : FileStats :=
  let ls := goLines content
  { path := path
    lines := ls.length
    blankLines := (ls.filter (fun l => decide (goTrimSpace l = ""))).length
    codeLines := (ls.filter (fun l => decide (goTrimSpace l ≠ ""))).length
    size := content.utf8ByteSize }

/-- `stats.sourceExtensionsByRuntime`. -/
def sourceExtensionsByRuntime : List (String × List String) :=
  [(RuntimeGo, [".go"]),
   (RuntimePython, [".py", ".pyw", ".pyi"]),
   (RuntimeJavaScript, [".js", ".jsx", ".mjs", ".cjs"]),
   (RuntimeTypeScript, [".ts", ".tsx", ".js", ".jsx", ".mjs", ".cjs"]),
   (RuntimeJava, [".java", ".kt", ".kts", ".scala"]),
   (RuntimeDotNet, [".cs", ".fs", ".vb"]),
   (RuntimeRust, [".rs"]),
   (RuntimeDart, [".dart"]),
   (RuntimeCpp, [".c", ".h", ".cpp", ".cc", ".cxx", ".hpp", ".hh", ".hxx"])]

/-- `stats.isSourceFile`: extension table lookup; an unknown runtime type
accepts no files. -/
def isSourceFile (path : List String) (runtimeType : String) : Bool :=
  let ext := lowerStr (extOf (baseComp path))
  match sourceExtensionsByRuntime.find? (fun e => decide (e.1 = runtimeType)) with
  | some e => e.2.contains ext
  | none => false

/-- `models.ProjectStats` (the fields `CountProject` fills; the recursive
`Children` of `CountHierarchy` is outside the claims and the model). -/
structure ProjectStats where
  project : Project
  totalFiles : Nat
  totalFolders : Nat
  totalLines : Nat
  blankLines : Nat
  codeLines : Nat
  totalSize : Nat
  largestFiles : List FileStats
  allFiles : List FileStats

/-- The legacy `srcIgnorePaths` prefix test of the walk callback
(`relPath == ignorePath || strings.HasPrefix(relPath, ignorePath+sep)`). -/
def srcIgnoreHit (srcIgnorePaths : List (List String)) (rel : List String) : Bool :=
  srcIgnorePaths.any (fun ig => decide (rel = ig) || listLead ig rel)

/-- The directory-pruning test of the walk callback: the legacy prefix
rule, then the effective matcher (`ShouldIgnore` stats the path; walked
directories stat as directories). -/
def dirPruned (m : Matcher) (fpMatch : String → String → Bool) (proj : Project)
    (projectPath path : List String) : Bool :=
  srcIgnoreHit proj.srcIgnorePaths (relComps projectPath path) ||
  m.shouldIgnore fpMatch true path

/-- A chronological `WalkDir` event. -/
inductive Visit where
  | vdir (path : List String)
  | vfile (path : List String) (content : String)
  deriving DecidableEq, Repr

/-- `filepath.WalkDir` with the callback's directory pruning: a pruned
directory is not descended into (`filepath.SkipDir`); files are emitted
for the counting stage. -/
def walkAt (prune : List String → Bool) (path : List String) : FSEntry → List Visit
  | .file _ content => [.vfile path content]
  | .dir _ es =>
    if prune path then []
    else .vdir path :: es.attach.flatMap (fun ch => walkAt prune (path ++ [ch.1.name]) ch.1)
decreasing_by
  have := List.sizeOf_lt_of_mem ch.2
  cases ch with
  | mk v pv => simp_all; omega

/-- The running accumulation of one `CountProject` pass. -/
structure CountAcc where
  seen : List (List String)
  folders : List (List String)
  totalFiles : Nat
  totalLines : Nat
  blankLines : Nat
  codeLines : Nat
  totalSize : Nat
  allFiles : List FileStats

/-- The empty accumulation. -/
def CountAcc.init : CountAcc := ⟨[], [], 0, 0, 0, 0, 0, []⟩

/-- `Counter.addFileStats` plus the `allFiles` append and the `seenFiles`
insertion of the call sites. -/
def CountAcc.addFile (acc : CountAcc) (fs : FileStats) : CountAcc :=
  { acc with
    seen := acc.seen ++ [fs.path]
    totalFiles := acc.totalFiles + 1
    totalLines := acc.totalLines + fs.lines
    blankLines := acc.blankLines + fs.blankLines
    codeLines := acc.codeLines + fs.codeLines
    totalSize := acc.totalSize + fs.size
    allFiles := acc.allFiles ++ [fs] }

/-- The walk callback of `CountProject` for one visited entry: directories
land in the folder set; files pass the extension filter, the effective
matcher, and the deduplication check before being counted. -/
def visitStep (m : Matcher) (fpMatch : String → String → Bool) (proj : Project)
    (acc : CountAcc) (v : Visit) : CountAcc :=
  match v with
  | .vdir p =>
    if acc.folders.contains p then acc else { acc with folders := acc.folders ++ [p] }
  | .vfile p content =>
    if !isSourceFile p proj.runtime.type then acc
    else if m.shouldIgnoreFile fpMatch p then acc
    else if acc.seen.contains p then acc
    else acc.addFile (countFile p content)

/-- One source path of the `CountProject` loop: a missing path is skipped,
a single file is counted directly (deduplicated but unfiltered), a
directory is walked. -/
def srcPathStep (fsRoot : FSEntry) (m : Matcher) (fpMatch : String → String → Bool)
    (proj : Project) (projectPath : List String) (acc : CountAcc) (srcPath : List String) :
    CountAcc :=
  let fullPath := projectPath ++ srcPath
  match fsLookup fullPath fsRoot with
  | none => acc
  | some (.file _ content) =>
    if acc.seen.contains fullPath then acc
    else acc.addFile (countFile fullPath content)
  | some (.dir n es) =>
    ((walkAt (dirPruned m fpMatch proj projectPath) fullPath (.dir n es)).foldl
      (visitStep m fpMatch proj) acc)

/-- The effective ignore matcher of `CountProject`: a clone of the base
matcher, layered with the configuration's global excludes and then the
project's own exclude patterns. -/
def effectiveMatcher (base : Matcher) (cfg : Option RepoCtrConfig) (proj : Project) : Matcher :=
  let m := base.clone
  let m2 :=
    match cfg with
    | some c => if c.globalExcludes ≠ [] then m.addPatterns c.globalExcludes else m
    | none => m
  if proj.excludePatterns ≠ [] then m2.addPatterns proj.excludePatterns else m2

/-- `Counter.CountProject` (with `rootDir = []`, so the project path is
the join of root and project path).  `sort.Slice` with the descending
line comparator is modelled by insertion sort; ties keep encounter order,
one of the orders the unstable Go sort may produce. -/
def countProject (fsRoot : FSEntry) (base : Matcher) (cfg : Option RepoCtrConfig)
    (fpMatch : String → String → Bool) (proj : Project) : ProjectStats :=
  let projectPath := proj.path
  let m := effectiveMatcher base cfg proj
  let acc := proj.sourcePaths.foldl (srcPathStep fsRoot m fpMatch proj projectPath) CountAcc.init
  let sorted := insSortBy (fun a b => decide (b.lines ≤ a.lines)) acc.allFiles
  { project := proj
    totalFiles := acc.totalFiles
    totalFolders := acc.folders.length
    totalLines := acc.totalLines
    blankLines := acc.blankLines
    codeLines := acc.codeLines
    totalSize := acc.totalSize
    largestFiles := sorted.take 5
    allFiles := sorted }

end RepoCtr

namespace RepoCtr

/-! ## Helper lemmas -/

/-- Splitting a list's length by a boolean predicate. -/
theorem length_filter_add_length_filter_not (f : α → Bool) (l : List α) :
    (l.filter f).length + (l.filter (fun x => !f x)).length = l.length := by
  induction l with
  | nil => rfl
  | cons x xs ih =>
    cases h : f x <;> simp [List.filter_cons, h] <;> omega

end RepoCtr

namespace RepoCtr

/-! ## C8 -/

/-- C8: `countFile` classifies a line as blank exactly when its content is
empty after trimming surrounding white space and as a code line otherwise,
so `Lines = BlankLines + CodeLines` for every counted file; `Size` equals
the file's byte length as reported by the file system, independent of the
line scan; and a zero-byte file yields `Lines = 0`, `CodeLines = 0`,
`BlankLines = 0`, `Size = 0`. -/
theorem c8_countFile_classification (path : List String) (content : String) :
    (countFile path content).lines =
      (countFile path content).blankLines + (countFile path content).codeLines ∧
    (countFile path content).blankLines =
      (goLines content).countP (fun l => decide (goTrimSpace l = "")) ∧
    (countFile path content).codeLines =
      (goLines content).countP (fun l => !decide (goTrimSpace l = "")) ∧
    (countFile path content).size = content.utf8ByteSize ∧
    countFile path "" = ⟨path, 0, 0, 0, 0⟩ := by
  refine ⟨?_, ?_, ?_, rfl, rfl⟩
  · simp only [countFile]
    have h := length_filter_add_length_filter_not
      (fun l => decide (goTrimSpace l = "")) (goLines content)
    simp only [ne_eq, decide_not]
    omega
  · simp [countFile, List.countP_eq_length_filter]
  · simp [countFile, List.countP_eq_length_filter, ne_eq, decide_not]

end RepoCtr

namespace RepoCtr

/-! ## C9 -/

/-- C9: for every path whose base name is `node_modules` — and generally
any base name in the built-in default ignore set — `ShouldIgnore` returns
true whatever the parsed `.gitignore` contains: the built-in basename
check precedes gitignore evaluation, so no negation rule can un-ignore
such a path. -/
theorem c9_shouldIgnore_builtin_basename (root : List String)
    (gitignore : Option (List String)) (fpMatch : String → String → Bool)
    (isDir : Bool) (path : List String)
    (h : baseComp path ∈ DefaultIgnorePatterns) :
    (newMatcher root gitignore).shouldIgnore fpMatch isDir path = true := by
  have hc : DefaultIgnorePatterns.contains (baseComp path) = true :=
    List.elem_eq_true_of_mem h
  simp [Matcher.shouldIgnore, newMatcher, hc]
  exact Or.inl h

/-- Witness for C9: a path ending in `node_modules`, against a matcher
whose gitignore even contains the negation rule `!node_modules`. -/
theorem c9_witness :
    baseComp ["a", "node_modules"] ∈ DefaultIgnorePatterns ∧
    (newMatcher [] (some ["!node_modules"])).shouldIgnore (fun _ _ => false) true
      ["a", "node_modules"] = true :=
  ⟨by decide,
   c9_shouldIgnore_builtin_basename [] (some ["!node_modules"]) (fun _ _ => false) true
     ["a", "node_modules"] (by decide)⟩

end RepoCtr

namespace RepoCtr

/-! ## C3 -/

/-- C3: `CountProject` layers its effective ignore matcher as a clone of
the counter's base matcher, extended first with the configuration's global
excludes and then with the project's own exclude patterns.  The layering
only appends gitignore-style rules: the built-in exclusion set (and the
root) of the base matcher are intact in the effective matcher, and since
the clone is an independent copy the shared base matcher itself is left
unchanged — cloning returns an equal matcher and every layering operation
returns a new matcher rather than touching `base`. -/
theorem c3_effectiveMatcher_layering (base : Matcher) (cfg : Option RepoCtrConfig)
    (proj : Project) :
    base.clone = base ∧
    (effectiveMatcher base cfg proj).rootDir = base.rootDir ∧
    (effectiveMatcher base cfg proj).defaultIgnores = base.defaultIgnores ∧
    (effectiveMatcher base cfg proj).gitignoreRules =
      base.gitignoreRules ++
        parseGitignoreLines (match cfg with | some c => c.globalExcludes | none => []) ++
        parseGitignoreLines proj.excludePatterns := by
  have hnil : parseGitignoreLines [] = [] := rfl
  refine ⟨rfl, ?_, ?_, ?_⟩ <;>
    cases cfg with
    | none =>
      by_cases h : proj.excludePatterns = [] <;>
        simp [effectiveMatcher, Matcher.clone, Matcher.addPatterns, h, hnil]
    | some c =>
      by_cases h1 : c.globalExcludes = [] <;> by_cases h2 : proj.excludePatterns = [] <;>
        simp [effectiveMatcher, Matcher.clone, Matcher.addPatterns, h1, h2, hnil]

end RepoCtr

namespace RepoCtr

/-! ## C10 -/

/-- One `Build` iteration only ever appends to a children list. -/
theorem buildStep_kids_extend (s : BState) (e : Nat × List String) (j : Nat) :
    ∃ u, (buildStep s e).kids j = s.kids j ++ u := by
  cases h : findNearestAncestor e.2 ((e.2, e.1) :: s.pmap) with
  | some parent =>
    by_cases hp : j = parent
    · exact ⟨[e.1], by simp [buildStep, h, hp]⟩
    · exact ⟨[], by simp [buildStep, h, hp]⟩
  | none => exact ⟨[], by simp [buildStep, h]⟩

/-- The `Build` loop only ever appends to children lists. -/
theorem foldl_buildStep_kids_extend (entries : List (Nat × List String)) :
    ∀ (s : BState) (j : Nat), ∃ t, ((entries.foldl buildStep s).kids j) = s.kids j ++ t := by
  induction entries with
  | nil => exact fun s j => ⟨[], by simp⟩
  | cons e rest ih =>
    intro s j
    obtain ⟨t, ht⟩ := ih (buildStep s e) j
    obtain ⟨u, hu⟩ := buildStep_kids_extend s e j
    exact ⟨u ++ t, by simp only [List.foldl_cons, ht, hu, List.append_assoc]⟩

/-- C10: `Build` never copies a project — the caller's projects are the
nodes of the produced tree, and each iteration appends onto the parent
project's existing `Children` in place.  Every children list after `Build`
is therefore its prior value extended on the right, and running `Build` a
second time over the same in-memory projects (their children tables being
the output of the first run) appends every child to its parent again:
with projects at `"."` and `"a"`, the first run gives project 0 (at `"."`)
the children `[1]`, the second run `[1, 1]` — `Build` is not idempotent
over the same input objects. -/
theorem c10_build_appends_in_place :
    (∀ (k0 : Nat → List Nat) (ps : List (List String)) (j : Nat),
        ∃ t, (hierarchyBuild k0 ps).kids j = k0 j ++ t) ∧
    (hierarchyBuild (fun _ => []) [[], ["a"]]).kids 0 = [1] ∧
    (hierarchyBuild ((hierarchyBuild (fun _ => []) [[], ["a"]]).kids) [[], ["a"]]).kids 0 =
      [1, 1] := by
  refine ⟨?_, by decide, by decide⟩
  intro k0 ps j
  exact foldl_buildStep_kids_extend _ _ j

end RepoCtr

namespace RepoCtr

/-! ## C4 -/

/-- A fold that overwrites its state at every element satisfying `p` ends
up with the value of the last such element. -/
theorem foldl_last_decides (p : α → Bool) (f : α → Bool) (l : List α) :
    ∀ init : Bool,
      l.foldl (fun st r => if p r then f r else st) init =
        (match (l.filter p).getLast? with
         | none => init
         | some r => f r) := by
  induction l using List.reverseRecOn with
  | nil => intro init; rfl
  | append_singleton ys y ih =>
    intro init
    rw [List.foldl_append, List.filter_append, ih init]
    cases h : p y <;> simp [h, List.getLast?_concat]

/-- C4: the matcher evaluates gitignore rules in file order and each
matching rule overwrites the ignored state with the negation of its negate
flag, so the last matching rule decides the outcome (not the first); a
non-anchored rule matches when the whole relative path matches the glob or
when the final path component alone matches it, while an anchored rule is
matched against the full relative path only; directory-only rules are
skipped for non-directories. -/
theorem c4_gitignore_last_match_wins (fpMatch : String → String → Bool)
    (rules : List GitignoreRule) (relPath : String) (isDir : Bool) :
    matchGitignore fpMatch rules relPath isDir =
      (match (rules.filter (fun r => ruleApplies fpMatch r relPath isDir)).getLast? with
       | none => false
       | some r => !r.negate) ∧
    (∀ r : GitignoreRule, r.dirOnly = false ∨ isDir = true → r.anchored = false →
      ruleApplies fpMatch r relPath isDir =
        (matchPattern fpMatch r.pattern relPath ||
         matchPattern fpMatch r.pattern ⟨baseChars relPath.toList⟩)) ∧
    (∀ r : GitignoreRule, r.dirOnly = false ∨ isDir = true → r.anchored = true →
      ruleApplies fpMatch r relPath isDir = matchPattern fpMatch r.pattern relPath) ∧
    (∀ r : GitignoreRule, r.dirOnly = true → isDir = false →
      ruleApplies fpMatch r relPath isDir = false) := by
  refine ⟨by
    unfold matchGitignore
    suffices h : ∀ (l : List GitignoreRule) (init : Bool),
        l.foldl
          (fun ignored rule =>
            if ruleApplies fpMatch rule relPath isDir then !rule.negate else ignored) init =
          (match (l.filter (fun r => ruleApplies fpMatch r relPath isDir)).getLast? with
           | none => init
           | some r => !r.negate) from h rules false
    intro l
    induction l using List.reverseRecOn with
    | nil => intro init; rfl
    | append_singleton ys y ih =>
      intro init
      rw [List.foldl_append, List.filter_append, ih init]
      cases h : ruleApplies fpMatch y relPath isDir <;> simp [h, List.getLast?_concat], ?_, ?_, ?_⟩
  · rintro r (h1 | h1) h2 <;> simp [ruleApplies, h1, h2]
  · rintro r (h1 | h1) h2 <;> simp [ruleApplies, h1, h2]
  · intro r h1 h2
    simp [ruleApplies, h1, h2]

/-- Witness for C4: with two rules carrying the same pattern `b`, the
second rule negated, a path `a/b` ends up not ignored — the last matching
rule decides (first-match-wins would ignore it) — and a non-anchored rule
falls back to base-name matching. -/
theorem c4_witness :
    matchGitignore (fun _ _ => false)
      [⟨"b", false, false, false⟩, ⟨"b", true, false, false⟩] "a/b" false = false ∧
    ruleApplies (fun _ _ => false) ⟨"b", false, false, false⟩ "a/b" false =
      (matchPattern (fun _ _ => false) "b" "a/b" ||
       matchPattern (fun _ _ => false) "b" ⟨baseChars "a/b".toList⟩) := by
  constructor
  · rw [(c4_gitignore_last_match_wins (fun _ _ => false)
      [⟨"b", false, false, false⟩, ⟨"b", true, false, false⟩] "a/b" false).1]
    decide
  · exact (c4_gitignore_last_match_wins (fun _ _ => false)
      [⟨"b", false, false, false⟩, ⟨"b", true, false, false⟩] "a/b" false).2.1
      ⟨"b", false, false, false⟩ (Or.inl rfl) rfl

end RepoCtr

namespace RepoCtr

/-! ## C2 -/

/-- The base name of a path built from a directory part and a final
component. -/
theorem baseComp_concat (l : List String) (c : String) : baseComp (l ++ [c]) = c := by
  simp [baseComp, List.getLast?_concat]

/-- C2: a `.sln` manifest containing the Visual Studio signature but none
of the `.csproj`/`.fsproj`/`.vbproj` references (e.g. one referencing only
`.vcxproj` projects) produces no detection at all from
`Registry.DetectProject` — in particular no .NET detection; one containing
the signature and a `.csproj` reference is detected as a .NET project. -/
theorem c2_sln_requires_dotnet_reference (O : Oracles) (dirs : List String)
    (base content : String)
    (hext : lowerStr (extOf base) = ".sln")
    (hsig : strContains content "Microsoft Visual Studio" = true) :
    ((strContains content ".csproj" = false ∧ strContains content ".fsproj" = false ∧
      strContains content ".vbproj" = false) →
      registryDetectProject O (dirs ++ [base]) content = .ok none) ∧
    (strContains content ".csproj" = true →
      ∃ p, registryDetectProject O (dirs ++ [base]) content = .ok (some p) ∧
        p.runtime.type = RuntimeDotNet) := by
  have hb : baseComp (dirs ++ [base]) = base := baseComp_concat dirs base
  have hne : ∀ s : String, lowerStr (extOf s) ≠ ".sln" → ¬(base = s) := by
    intro s h hbs
    exact h (hbs ▸ hext)
  constructor
  · rintro ⟨h1, h2, h3⟩
    have hdot : dotnetDetect O (dirs ++ [base]) content = .ok none := by
      simp [dotnetDetect, hb, hext, detectSolutionFile, hsig, h1, h2, h3]
    have hpy : pythonDetect O (dirs ++ [base]) content = .ok none := by
      simp [pythonDetect, hb, hne "pyproject.toml" (by decide), hne "setup.py" (by decide),
        hne "requirements.txt" (by decide)]
    have hgo : goDetect (dirs ++ [base]) content = .ok none := by
      simp [goDetect, hb, hne "go.mod" (by decide)]
    have hjava : javaDetect O (dirs ++ [base]) content = .ok none := by
      simp [javaDetect, hb, hne "pom.xml" (by decide), hne "build.gradle" (by decide),
        hne "build.gradle.kts" (by decide)]
    have hjs : javascriptDetect O (dirs ++ [base]) content = .ok none := by
      simp [javascriptDetect, hb, hne "package.json" (by decide)]
    have hdart : dartDetect O (dirs ++ [base]) content = .ok none := by
      simp [dartDetect, hb, hne "pubspec.yaml" (by decide)]
    have hcpp : cppDetect O (dirs ++ [base]) content = .ok none := by
      simp [cppDetect, hb, hext, hne "CMakeLists.txt" (by decide), hne "Makefile" (by decide),
        hne "meson.build" (by decide)]
    have hrust : rustDetect O (dirs ++ [base]) content = .ok none := by
      simp [rustDetect, hb, hne "Cargo.toml" (by decide)]
    simp [registryDetectProject, registryDetectors, detectProjectList, hdot, hpy, hgo,
      hjava, hjs, hdart, hcpp, hrust]
  · intro h1
    refine ⟨dotnetCreateProject (dirs ++ [base]) "", ?_, by simp [dotnetCreateProject]⟩
    have hdot : dotnetDetect O (dirs ++ [base]) content =
        .ok (some (dotnetCreateProject (dirs ++ [base]) "")) := by
      simp [dotnetDetect, hb, hext, detectSolutionFile, hsig, h1]
    simp [registryDetectProject, registryDetectors, detectProjectList, hdot]

end RepoCtr

namespace RepoCtr

/-- A closed oracle bundle: every structured parse fails, no
`tsconfig.json`, no Makefile regex hits (used to instantiate theorems at
concrete inputs). -/
def oraclesNone : Oracles :=
  { parseCsproj := fun _ => none
    parsePom := fun _ => none
    parsePyproject := fun _ => none
    parsePackageJson := fun _ => none
    parseCargo := fun _ => none
    parsePubspec := fun _ => none
    tsconfigExists := fun _ => false
    reCompilerCall := fun _ => false
    reCBuildVars := fun _ => false }

/-- Witness for C2: a solution file that references only a `.vcxproj`
yields no detection; one referencing a `.csproj` is detected as .NET. -/
theorem c2_witness :
    registryDetectProject oraclesNone (["demo"] ++ ["app.sln"])
      "Microsoft Visual Studio Solution File Project core.vcxproj" = .ok none ∧
    (∃ p, registryDetectProject oraclesNone (["demo"] ++ ["app.sln"])
        "Microsoft Visual Studio Solution File Project app.csproj" = .ok (some p) ∧
      p.runtime.type = RuntimeDotNet) := by
  constructor
  · exact (c2_sln_requires_dotnet_reference oraclesNone ["demo"] "app.sln"
      "Microsoft Visual Studio Solution File Project core.vcxproj" (by decide) (by decide)).1
      ⟨by decide, by decide, by decide⟩
  · exact (c2_sln_requires_dotnet_reference oraclesNone ["demo"] "app.sln"
      "Microsoft Visual Studio Solution File Project app.csproj" (by decide) (by decide)).2
      (by decide)

end RepoCtr

namespace RepoCtr

/-! ## C6 -/

/-- The .NET detector returns `ok` in every branch. -/
theorem dotnetDetect_ok (O : Oracles) (p : List String) (c : String) :
    ∃ r, dotnetDetect O p c = .ok r := by
  simp only [dotnetDetect, detectProjectFile, detectSolutionFile]
  repeat' split
  all_goals exact ⟨_, rfl⟩

/-- The Python detector returns `ok` in every branch. -/
theorem pythonDetect_ok (O : Oracles) (p : List String) (c : String) :
    ∃ r, pythonDetect O p c = .ok r := by
  simp only [pythonDetect, detectPyprojectToml, detectSetupPy, detectRequirementsTxt]
  repeat' split
  all_goals exact ⟨_, rfl⟩

/-- The Go detector returns `ok` in every branch. -/
theorem goDetect_ok (p : List String) (c : String) : ∃ r, goDetect p c = .ok r := by
  simp only [goDetect]
  repeat' split
  all_goals exact ⟨_, rfl⟩

/-- The Java detector returns `ok` in every branch. -/
theorem javaDetect_ok (O : Oracles) (p : List String) (c : String) :
    ∃ r, javaDetect O p c = .ok r := by
  simp only [javaDetect, detectPomXml, detectGradle]
  repeat' split
  all_goals exact ⟨_, rfl⟩

/-- The JavaScript detector returns `ok` in every branch. -/
theorem javascriptDetect_ok (O : Oracles) (p : List String) (c : String) :
    ∃ r, javascriptDetect O p c = .ok r := by
  simp only [javascriptDetect]
  repeat' split
  all_goals exact ⟨_, rfl⟩

/-- The Dart detector returns `ok` in every branch. -/
theorem dartDetect_ok (O : Oracles) (p : List String) (c : String) :
    ∃ r, dartDetect O p c = .ok r := by
  simp only [dartDetect]
  repeat' split
  all_goals exact ⟨_, rfl⟩

/-- The C/C++ detector returns `ok` in every branch. -/
theorem cppDetect_ok (O : Oracles) (p : List String) (c : String) :
    ∃ r, cppDetect O p c = .ok r := by
  simp only [cppDetect, detectCMake, detectMakefile, detectMeson, detectVcxproj]
  repeat' split
  all_goals exact ⟨_, rfl⟩

/-- The Rust detector returns `ok` in every branch. -/
theorem rustDetect_ok (O : Oracles) (p : List String) (c : String) :
    ∃ r, rustDetect O p c = .ok r := by
  simp only [rustDetect]
  repeat' split
  all_goals exact ⟨_, rfl⟩

/-- A registry whose detectors never error never takes the error branch. -/
theorem detectProjectList_ok (ds : List (List String → String → DetectResult))
    (path : List String) (content : String)
    (h : ∀ d ∈ ds, ∃ r, d path content = .ok r) :
    ∃ r, detectProjectList ds path content = .ok r := by
  induction ds with
  | nil => exact ⟨none, rfl⟩
  | cons d rest ih =>
    obtain ⟨r, hr⟩ := h d (List.mem_cons_self d rest)
    have ih2 := ih (fun d2 hd2 => h d2 (List.mem_cons_of_mem d hd2))
    cases r with
    | none =>
      obtain ⟨r2, hr2⟩ := ih2
      exact ⟨r2, by simp [detectProjectList, hr, hr2]⟩
    | some p => exact ⟨some p, by simp [detectProjectList, hr]⟩

end RepoCtr

namespace RepoCtr

/-- Counterexample for C6: a `.csproj` whose content carries the
`<Project` marker but fails XML parsing is detected with an empty version,
yet its name is the manifest file name with the extension trimmed
(`Bar`) — not the containing directory's name (`app`). -/
theorem c6_counterexample :
    strContains "<Project" "<Project" = true ∧
    oraclesNone.parseCsproj "<Project" = none ∧
    dotnetDetect oraclesNone ["app", "Bar.csproj"] "<Project" =
      .ok (some (dotnetCreateProject ["app", "Bar.csproj"] "")) ∧
    (dotnetCreateProject ["app", "Bar.csproj"] "").name = "Bar" ∧
    (dotnetCreateProject ["app", "Bar.csproj"] "").runtime.version = "" ∧
    baseComp (dirComps ["app", "Bar.csproj"]) = "app" ∧
    ("Bar" : String) ≠ "app" :=
  ⟨by decide, rfl, rfl, by decide, rfl, rfl, by decide⟩

end RepoCtr

namespace RepoCtr

/-- C6 (amended): no registered detector ever returns an error, so the
error branch of `Registry.DetectProject` is unreachable; content lacking a
detector's minimal marker yields a nil (not-applicable) result; and
content carrying the marker but failing structured parsing yields a
detected project with an empty version whose name falls back to the
containing directory's name — except for .NET project files
(`.csproj`/`.fsproj`/`.vbproj`), whose fallback name is the manifest file
name with its extension trimmed. -/
theorem c6_detectors_never_error_and_degrade (O : Oracles) (path : List String)
    (content : String) :
    (∀ d ∈ registryDetectors O, ∃ r, d path content = .ok r) ∧
    (∃ r, registryDetectProject O path content = .ok r) ∧
    ((lowerStr (extOf (baseComp path)) = ".csproj" ∨
      lowerStr (extOf (baseComp path)) = ".fsproj" ∨
      lowerStr (extOf (baseComp path)) = ".vbproj") →
      strContains content "<Project" = false → dotnetDetect O path content = .ok none) ∧
    (lowerStr (extOf (baseComp path)) = ".sln" →
      (strContains content "Microsoft Visual Studio" = false ∨
       (strContains content ".csproj" = false ∧ strContains content ".fsproj" = false ∧
        strContains content ".vbproj" = false)) →
      dotnetDetect O path content = .ok none) ∧
    (baseComp path = "go.mod" → strContains content "module " = false →
      goDetect path content = .ok none) ∧
    (baseComp path = "setup.py" → strContains content "setup(" = false →
      strContains content "setup (" = false → pythonDetect O path content = .ok none) ∧
    (baseComp path = "pom.xml" → strContains content "<project" = false →
      javaDetect O path content = .ok none) ∧
    ((baseComp path = "build.gradle" ∨ baseComp path = "build.gradle.kts") →
      strContains content "plugins" = false → strContains content "apply plugin" = false →
      strContains content "dependencies" = false → javaDetect O path content = .ok none) ∧
    (baseComp path = "CMakeLists.txt" → strContains content "cmake_minimum_required" = false →
      strContains content "project(" = false → cppDetect O path content = .ok none) ∧
    (baseComp path = "Makefile" → strContains content "$(CC)" = false →
      strContains content "$(CXX)" = false → O.reCompilerCall content = false →
      strContains content "-std=c" = false → O.reCBuildVars content = false →
      cppDetect O path content = .ok none) ∧
    (baseComp path = "meson.build" → strContains content "project(" = false →
      cppDetect O path content = .ok none) ∧
    (lowerStr (extOf (baseComp path)) = ".vcxproj" → strContains content "<ClCompile" = false →
      strContains content "Microsoft.Cpp" = false → cppDetect O path content = .ok none) ∧
    ((lowerStr (extOf (baseComp path)) = ".csproj" ∨
      lowerStr (extOf (baseComp path)) = ".fsproj" ∨
      lowerStr (extOf (baseComp path)) = ".vbproj") →
      strContains content "<Project" = true → O.parseCsproj content = none →
      dotnetDetect O path content = .ok (some (dotnetCreateProject path "")) ∧
      (dotnetCreateProject path "").runtime.version = "" ∧
      (dotnetCreateProject path "").name =
        trimSuf (baseComp path) (lowerStr (extOf (baseComp path)))) ∧
    (baseComp path = "pyproject.toml" → O.parsePyproject content = none →
      pythonDetect O path content = .ok (some (pythonCreateProject path "" "")) ∧
      (pythonCreateProject path "" "").name = baseComp (dirComps path) ∧
      (pythonCreateProject path "" "").runtime.version = "") ∧
    (baseComp path = "pom.xml" → strContains content "<project" = true →
      O.parsePom content = none →
      javaDetect O path content = .ok (some (javaCreateProject path "" "")) ∧
      (javaCreateProject path "" "").name = baseComp (dirComps path) ∧
      (javaCreateProject path "" "").runtime.version = "") ∧
    (baseComp path = "package.json" → O.parsePackageJson content = none →
      javascriptDetect O path content = .ok (some (jsCreateProject path "" "" false)) ∧
      (jsCreateProject path "" "" false).name = baseComp (dirComps path) ∧
      (jsCreateProject path "" "" false).runtime.version = "") ∧
    (baseComp path = "Cargo.toml" → O.parseCargo content = none →
      rustDetect O path content = .ok (some (rustCreateProject path "" "")) ∧
      (rustCreateProject path "" "").name = baseComp (dirComps path) ∧
      (rustCreateProject path "" "").runtime.version = "") ∧
    (baseComp path = "pubspec.yaml" → O.parsePubspec content = none →
      dartDetect O path content = .ok (some (dartCreateProject path "" "")) ∧
      (dartCreateProject path "" "").name = baseComp (dirComps path) ∧
      (dartCreateProject path "" "").runtime.version = "") := by
  refine ⟨?_, ?_, ?_, ?_, ?_, ?_, ?_, ?_, ?_, ?_, ?_, ?_, ?_, ?_, ?_, ?_, ?_, ?_⟩
  · intro d hd
    simp only [registryDetectors, List.mem_cons, List.not_mem_nil, or_false] at hd
    rcases hd with h | h | h | h | h | h | h | h <;> subst h
    · exact dotnetDetect_ok O path content
    · exact pythonDetect_ok O path content
    · exact goDetect_ok path content
    · exact javaDetect_ok O path content
    · exact javascriptDetect_ok O path content
    · exact dartDetect_ok O path content
    · exact cppDetect_ok O path content
    · exact rustDetect_ok O path content
  · refine detectProjectList_ok _ path content ?_
    intro d hd
    simp only [registryDetectors, List.mem_cons, List.not_mem_nil, or_false] at hd
    rcases hd with h | h | h | h | h | h | h | h <;> subst h
    · exact dotnetDetect_ok O path content
    · exact pythonDetect_ok O path content
    · exact goDetect_ok path content
    · exact javaDetect_ok O path content
    · exact javascriptDetect_ok O path content
    · exact dartDetect_ok O path content
    · exact cppDetect_ok O path content
    · exact rustDetect_ok O path content
  · rintro (h | h | h) hm <;> simp [dotnetDetect, h, detectProjectFile, hm]
  · rintro h hdis
    rcases hdis with hm | ⟨h1, h2, h3⟩
    · simp [dotnetDetect, h, detectSolutionFile, hm]
    · simp [dotnetDetect, h, detectSolutionFile, h1, h2, h3]
  · intro h hm
    simp [goDetect, h, hm]
  · intro h h1 h2
    simp [pythonDetect, h, detectSetupPy, h1, h2,
      show ¬("setup.py" = "pyproject.toml") by decide]
  · intro h hm
    simp [javaDetect, h, detectPomXml, hm]
  · rintro (h | h) h1 h2 h3 <;>
      simp [javaDetect, h, detectGradle, h1, h2, h3,
        show ¬("build.gradle" = "pom.xml") by decide,
        show ¬("build.gradle.kts" = "pom.xml") by decide]
  · intro h h1 h2
    simp [cppDetect, h, detectCMake, h1, h2]
  · intro h h1 h2 h3 h4 h5
    simp [cppDetect, h, detectMakefile, h1, h2, h3, h4, h5,
      show ¬("Makefile" = "CMakeLists.txt") by decide]
  · intro h h1
    simp [cppDetect, h, detectMeson, h1,
      show ¬("meson.build" = "CMakeLists.txt") by decide,
      show ¬("meson.build" = "Makefile") by decide]
  · intro hext h1 h2
    have hne : ∀ s : String, lowerStr (extOf s) ≠ ".vcxproj" → ¬(baseComp path = s) := by
      intro s h hbs
      exact h (hbs ▸ hext)
    simp [cppDetect, hext, detectVcxproj, h1, h2, hne "CMakeLists.txt" (by decide),
      hne "Makefile" (by decide), hne "meson.build" (by decide)]
  · rintro (h | h | h) hm hp <;>
      refine ⟨by simp [dotnetDetect, h, detectProjectFile, hm, hp], rfl, ?_⟩ <;>
      simp [dotnetCreateProject, h]
  · intro h hp
    exact ⟨by simp [pythonDetect, h, detectPyprojectToml, hp], by simp [pythonCreateProject], rfl⟩
  · intro h hm hp
    exact ⟨by simp [javaDetect, h, detectPomXml, hm, hp], by simp [javaCreateProject], rfl⟩
  · intro h hp
    exact ⟨by simp [javascriptDetect, h, hp], by simp [jsCreateProject], rfl⟩
  · intro h hp
    exact ⟨by simp [rustDetect, h, hp], by simp [rustCreateProject], rfl⟩
  · intro h hp
    exact ⟨by simp [dartDetect, h, hp], by simp [dartCreateProject], rfl⟩

end RepoCtr

namespace RepoCtr

/-- Witness for C6: the registry never errors on a concrete input; a
`go.mod` without the `module ` marker is not claimed; a `pyproject.toml`
that fails TOML parsing degrades to a detection named after its directory
with an empty version. -/
theorem c6_witness :
    (∃ r, registryDetectProject oraclesNone ["x", "go.mod"] "module a" = .ok r) ∧
    goDetect ["x", "go.mod"] "hello" = .ok none ∧
    (pythonDetect oraclesNone ["x", "pyproject.toml"] ":::" =
        .ok (some (pythonCreateProject ["x", "pyproject.toml"] "" "")) ∧
      (pythonCreateProject ["x", "pyproject.toml"] "" "").name =
        baseComp (dirComps ["x", "pyproject.toml"]) ∧
      (pythonCreateProject ["x", "pyproject.toml"] "" "").runtime.version = "") :=
  ⟨(c6_detectors_never_error_and_degrade oraclesNone ["x", "go.mod"] "module a").2.1,
   (c6_detectors_never_error_and_degrade oraclesNone ["x", "go.mod"] "hello").2.2.2.2.1
     (by decide) (by decide),
   (c6_detectors_never_error_and_degrade oraclesNone ["x", "pyproject.toml"]
       ":::").2.2.2.2.2.2.2.2.2.2.2.2.2.1 (by decide) rfl⟩

end RepoCtr

namespace RepoCtr

/-! ## C7 -/

/-- The override that `applyConfigOverrides` would consult. -/
def ovLookup (cfg : Option RepoCtrConfig) (q : List String) : Option ProjectOverride :=
  match cfg with
  | none => none
  | some c => lookupOverride c q

/-- Without an override for its path, `applyConfigOverrides` leaves a
project unchanged. -/
theorem applyConfigOverrides_eq_self (p : Project) (cfg : Option RepoCtrConfig)
    (h : ovLookup cfg p.path = none) : applyConfigOverrides p cfg = p := by
  cases cfg with
  | none => rfl
  | some c =>
    simp only [ovLookup] at h
    simp [applyConfigOverrides, h]

/-- Finding a key other than `k` is unaffected by dropping `k`-entries. -/
theorem find?_filter_ne (k q : List String) (h : q ≠ k)
    (l : List (List String × Project)) :
    (l.filter (fun e => decide (e.1 ≠ k))).find? (fun e => decide (e.1 = q)) =
      l.find? (fun e => decide (e.1 = q)) := by
  induction l with
  | nil => rfl
  | cons x xs ih =>
    by_cases hx : x.1 = k
    · have hxq : ¬(x.1 = q) := by
        intro hq
        exact h (by rw [← hq]; exact hx)
      have hfil : (decide (x.1 ≠ k)) = false := by simp [hx]
      rw [List.filter_cons, hfil]
      rw [List.find?_cons_of_neg _ (by simp [hxq])]
      simpa using ih
    · have hfil : (decide (x.1 ≠ k)) = true := by simp [hx]
      rw [List.filter_cons, hfil]
      by_cases hq : x.1 = q
      · simp only [if_true]
        rw [List.find?_cons_of_pos _ (by simp [hq]), List.find?_cons_of_pos _ (by simp [hq])]
      · simp only [if_true]
        rw [List.find?_cons_of_neg _ (by simp [hq]), List.find?_cons_of_neg _ (by simp [hq])]
        exact ih

/-- Inserting a key makes it found. -/
theorem pmapLookup_insert_self (m : List (List String × Project)) (k : List String)
    (v : Project) : pmapLookup (pmapInsert m k v) k = some v := by
  have hnone : (m.filter (fun e => decide (e.1 ≠ k))).find? (fun e => decide (e.1 = k)) = none := by
    rw [List.find?_eq_none]
    intro e he
    have h2 := (List.mem_filter.1 he).2
    simp at h2 ⊢
    exact h2
  simp [pmapLookup, pmapInsert, List.find?_append, hnone, List.find?]

/-- Looking up another key skips an insertion. -/
theorem pmapLookup_insert_ne (m : List (List String × Project)) (k q : List String)
    (v : Project) (h : q ≠ k) : pmapLookup (pmapInsert m k v) q = pmapLookup m q := by
  have h2 : ([(k, v)].find? (fun e => decide (e.1 = q))) = none := by
    rw [List.find?_eq_none]
    intro e he
    simp at he
    subst he
    simp
    exact fun hq => h (by rw [hq])
  simp only [pmapLookup, pmapInsert, List.find?_append, find?_filter_ne k q h, h2]
  cases m.find? (fun e => decide (e.1 = q)) <;> rfl

/-- Deletion does not affect other keys. -/
theorem pmapLookup_delete_ne (m : List (List String × Project)) (k q : List String)
    (h : q ≠ k) : pmapLookup (pmapDelete m k) q = pmapLookup m q := by
  simp only [pmapLookup, pmapDelete, find?_filter_ne k q h]

end RepoCtr

namespace RepoCtr

/-- The project map built by repeated insertion resolves a key to the last
inserted project with that path. -/
theorem foldl_pmapInsert_lookup (l : List Project) (m : List (List String × Project))
    (q : List String) :
    pmapLookup (l.foldl (fun m p => pmapInsert m p.path p) m) q =
      (match (l.filter (fun p => decide (p.path = q))).getLast? with
       | some p => some p
       | none => pmapLookup m q) := by
  induction l using List.reverseRecOn with
  | nil => rfl
  | append_singleton ys p ih =>
    rw [List.foldl_append, List.foldl_cons, List.foldl_nil, List.filter_append]
    by_cases hq : p.path = q
    · subst hq
      rw [pmapLookup_insert_self]
      simp [List.getLast?_concat]
    · rw [pmapLookup_insert_ne _ _ _ _ (fun hEq => hq hEq.symm), ih]
      simp [List.filter_cons, hq]

/-- With pairwise distinct paths, filtering a project list to one path
keeps exactly the project at that path. -/
theorem filter_path_eq_single (l : List Project) (hN : (l.map Project.path).Nodup)
    (e : Project) (he : e ∈ l) :
    l.filter (fun p => decide (p.path = e.path)) = [e] := by
  induction l with
  | nil => cases he
  | cons x xs ih =>
    rw [List.map_cons, List.nodup_cons] at hN
    rcases List.mem_cons.1 he with rfl | he2
    · rw [List.filter_cons_of_pos (by simp)]
      have hnil : xs.filter (fun p => decide (p.path = e.path)) = [] := by
        rw [List.filter_eq_nil_iff]
        intro p hp
        simp only [decide_eq_true_eq]
        intro hEq
        exact hN.1 (hEq ▸ List.mem_map_of_mem Project.path hp)
      rw [hnil]
    · have hne : ¬(x.path = e.path) := by
        intro hEq
        exact hN.1 (hEq ▸ List.mem_map_of_mem Project.path he2)
      rw [List.filter_cons_of_neg (by simp [hne])]
      exact ih hN.2 he2

/-- `buildProjectMap` resolves each path of a duplicate-free project list
to its project. -/
theorem buildProjectMap_lookup (existing : List Project)
    (hN : (existing.map Project.path).Nodup) (e : Project) (he : e ∈ existing) :
    pmapLookup (buildProjectMap existing) e.path = some e := by
  rw [buildProjectMap, foldl_pmapInsert_lookup, filter_path_eq_single existing hN e he]
  rfl

/-- A successful map lookup certifies membership. -/
theorem pmapLookup_mem (m : List (List String × Project)) (q : List String) (e : Project)
    (h : pmapLookup m q = some e) : (q, e) ∈ m := by
  unfold pmapLookup at h
  cases hf : m.find? (fun en => decide (en.1 = q)) with
  | none => rw [hf] at h; cases h
  | some x =>
    rw [hf] at h
    have hx1 : x.1 = q := by simpa using List.find?_some hf
    have hx2 : x.2 = e := by simpa using h
    have := List.mem_of_find?_eq_some hf
    rw [← hx1, ← hx2]
    simpa using this

/-- The merge loop only appends to its result list. -/
theorem foldl_mergeStep_snd_extend (cfg : Option RepoCtrConfig) (l : List Project) :
    ∀ acc : List (List String × Project) × List Project,
      ∃ t, (l.foldl (mergeStep cfg) acc).2 = acc.2 ++ t := by
  induction l with
  | nil => exact fun acc => ⟨[], by simp⟩
  | cons d rest ih =>
    intro acc
    obtain ⟨t, ht⟩ := ih (mergeStep cfg acc d)
    rw [List.foldl_cons, ht]
    cases hl : pmapLookup acc.1 d.path with
    | some e =>
      exact ⟨[applyConfigOverrides (mergeProject e d) cfg] ++ t, by simp [mergeStep, hl]⟩
    | none => exact ⟨[applyConfigOverrides d cfg] ++ t, by simp [mergeStep, hl]⟩

/-- A discovered project whose path resolves in the running map emits its
merged project into the loop's result. -/
theorem foldl_mergeStep_mem_merged (cfg : Option RepoCtrConfig) (l : List Project) :
    ∀ (m : List (List String × Project)) (r : List Project) (d e : Project),
      d ∈ l → (l.map Project.path).Nodup → pmapLookup m d.path = some e →
      applyConfigOverrides (mergeProject e d) cfg ∈ (l.foldl (mergeStep cfg) (m, r)).2 := by
  induction l with
  | nil => intro _ _ _ _ hd; cases hd
  | cons d0 rest ih =>
    intro m r d e hd hN hlook
    rw [List.map_cons, List.nodup_cons] at hN
    rw [List.foldl_cons]
    rcases List.mem_cons.1 hd with rfl | hd2
    · have hstep : mergeStep cfg (m, r) d =
          (pmapDelete m d.path, r ++ [applyConfigOverrides (mergeProject e d) cfg]) := by
        simp [mergeStep, hlook]
      rw [hstep]
      obtain ⟨t, ht⟩ := foldl_mergeStep_snd_extend cfg rest
        (pmapDelete m d.path, r ++ [applyConfigOverrides (mergeProject e d) cfg])
      rw [ht]
      simp
    · have hne : d.path ≠ d0.path := by
        intro hEq
        exact hN.1 (hEq ▸ List.mem_map_of_mem Project.path hd2)
      cases hl0 : pmapLookup m d0.path with
      | some e0 =>
        have hstep : mergeStep cfg (m, r) d0 =
            (pmapDelete m d0.path, r ++ [applyConfigOverrides (mergeProject e0 d0) cfg]) := by
          simp [mergeStep, hl0]
        rw [hstep]
        exact ih _ _ d e hd2 hN.2 (by rw [pmapLookup_delete_ne _ _ _ hne]; exact hlook)
      | none =>
        have hstep : mergeStep cfg (m, r) d0 = (m, r ++ [applyConfigOverrides d0 cfg]) := by
          simp [mergeStep, hl0]
        rw [hstep]
        exact ih _ _ d e hd2 hN.2 hlook

/-- A map entry whose key no discovered project carries survives the merge
loop. -/
theorem foldl_mergeStep_mem_fst (cfg : Option RepoCtrConfig) (l : List Project) :
    ∀ (m : List (List String × Project)) (r : List Project) (k : List String) (e : Project),
      (k, e) ∈ m → (∀ d ∈ l, d.path ≠ k) →
      (k, e) ∈ (l.foldl (mergeStep cfg) (m, r)).1 := by
  induction l with
  | nil => intro m r k e hm _; exact hm
  | cons d0 rest ih =>
    intro m r k e hm hno
    rw [List.foldl_cons]
    have hne : d0.path ≠ k := hno d0 (List.mem_cons_self d0 rest)
    have hrest : ∀ d ∈ rest, d.path ≠ k := fun d hd => hno d (List.mem_cons_of_mem d0 hd)
    cases hl0 : pmapLookup m d0.path with
    | some e0 =>
      have hstep : mergeStep cfg (m, r) d0 =
          (pmapDelete m d0.path, r ++ [applyConfigOverrides (mergeProject e0 d0) cfg]) := by
        simp [mergeStep, hl0]
      rw [hstep]
      refine ih _ _ k e ?_ hrest
      refine List.mem_filter.2 ⟨hm, ?_⟩
      simp only [decide_eq_true_eq]
      exact fun h => hne h.symm
    | none =>
      have hstep : mergeStep cfg (m, r) d0 = (m, r ++ [applyConfigOverrides d0 cfg]) := by
        simp [mergeStep, hl0]
      rw [hstep]
      exact ih _ _ k e hm hrest

end RepoCtr

namespace RepoCtr

/-- Counterexample for C7: `MergeProjects` applies configuration overrides
after merging, so with an override for path `p` carrying exclude patterns
`["ov"]`, the merged project's exclude patterns are `["ov"]` — not the
existing project's preserved `["keep"]` as the claim states. -/
theorem c7_counterexample :
    (mergeProjects
        [{ name := "dis", path := ["p"], runtime := { type := "Go", version := "1.21" }
           manifestFile := "go.mod", sourcePaths := [[]], srcIgnorePaths := []
           excludePatterns := [], children := [] }]
        [{ name := "ex", path := ["p"], runtime := { type := "Go", version := "" }
           manifestFile := "go.mod", sourcePaths := [[]], srcIgnorePaths := []
           excludePatterns := ["keep"], children := [] }]
        (some { globalExcludes := []
                projectOverrides := [(["p"],
                  { excludePatterns := ["ov"], srcIgnorePaths := [], sourcePaths := [] })] })).map
      (fun p => p.excludePatterns) = [["ov"]] ∧
    (["ov"] : List String) ≠ ["keep"] :=
  ⟨rfl, by decide⟩

/-- C7 (amended): for pairwise distinct discovered and existing paths, and
in the absence of configuration overrides (which are applied on top of the
merge and replace fields wholesale), `MergeProjects` merges a discovered
project with the existing project at the same path by taking the
discovered name, runtime, manifest file, source paths and children,
preserving the existing exclude patterns, and preserving the existing
srcIgnorePaths only when non-empty; every existing project with no
discovered counterpart is retained in the result. -/
theorem c7_merge_preserves_user_fields (discovered existing : List Project)
    (cfg : Option RepoCtrConfig)
    (hOv : ∀ q, ovLookup cfg q = none)
    (hdisN : (discovered.map Project.path).Nodup)
    (hexN : (existing.map Project.path).Nodup) :
    (∀ d ∈ discovered, ∀ e ∈ existing, e.path = d.path →
        mergeProject e d ∈ mergeProjects discovered existing cfg) ∧
    (∀ e d : Project,
        (mergeProject e d).name = d.name ∧
        (mergeProject e d).runtime = d.runtime ∧
        (mergeProject e d).manifestFile = d.manifestFile ∧
        (mergeProject e d).sourcePaths = d.sourcePaths ∧
        (mergeProject e d).children = d.children ∧
        (mergeProject e d).excludePatterns = e.excludePatterns ∧
        (mergeProject e d).srcIgnorePaths =
          (if e.srcIgnorePaths ≠ [] then e.srcIgnorePaths else d.srcIgnorePaths)) ∧
    (∀ e ∈ existing, (∀ d ∈ discovered, d.path ≠ e.path) →
        e ∈ mergeProjects discovered existing cfg) := by
  refine ⟨?_, ?_, ?_⟩
  · intro d hd e he hpath
    have hlook : pmapLookup (buildProjectMap existing) d.path = some e := by
      rw [← hpath]
      exact buildProjectMap_lookup existing hexN e he
    have hm := foldl_mergeStep_mem_merged cfg discovered (buildProjectMap existing) [] d e
      hd hdisN hlook
    rw [applyConfigOverrides_eq_self _ cfg (hOv _)] at hm
    unfold mergeProjects
    exact List.mem_append_left _ hm
  · intro e d
    exact ⟨rfl, rfl, rfl, rfl, rfl, rfl, rfl⟩
  · intro e he hno
    have hlook : pmapLookup (buildProjectMap existing) e.path = some e :=
      buildProjectMap_lookup existing hexN e he
    have hmem : (e.path, e) ∈ buildProjectMap existing := pmapLookup_mem _ _ _ hlook
    have hfst := foldl_mergeStep_mem_fst cfg discovered (buildProjectMap existing) [] e.path e
      hmem hno
    unfold mergeProjects
    refine List.mem_append_right _ ?_
    have : applyConfigOverrides e cfg = e := applyConfigOverrides_eq_self _ cfg (hOv _)
    refine List.mem_map.2 ⟨(e.path, e), hfst, this⟩

/-- Witness for C7: one discovered and one retained existing project, no
overrides. -/
theorem c7_witness :
    mergeProject
        { name := "ex", path := ["p"], runtime := { type := "Go", version := "" }
          manifestFile := "go.mod", sourcePaths := [[]], srcIgnorePaths := [["old"]]
          excludePatterns := ["keep"], children := [] }
        { name := "dis", path := ["p"], runtime := { type := "Go", version := "1.21" }
          manifestFile := "go.mod", sourcePaths := [["src"]], srcIgnorePaths := []
          excludePatterns := [], children := [] } ∈
      mergeProjects
        [{ name := "dis", path := ["p"], runtime := { type := "Go", version := "1.21" }
           manifestFile := "go.mod", sourcePaths := [["src"]], srcIgnorePaths := []
           excludePatterns := [], children := [] }]
        [{ name := "ex", path := ["p"], runtime := { type := "Go", version := "" }
           manifestFile := "go.mod", sourcePaths := [[]], srcIgnorePaths := [["old"]]
           excludePatterns := ["keep"], children := [] },
         { name := "solo", path := ["q"], runtime := { type := "Rust", version := "" }
           manifestFile := "Cargo.toml", sourcePaths := [["src"]], srcIgnorePaths := []
           excludePatterns := [], children := [] }]
        none ∧
    ({ name := "solo", path := ["q"], runtime := { type := "Rust", version := "" }
       manifestFile := "Cargo.toml", sourcePaths := [["src"]], srcIgnorePaths := []
       excludePatterns := [], children := [] } : Project) ∈
      mergeProjects
        [{ name := "dis", path := ["p"], runtime := { type := "Go", version := "1.21" }
           manifestFile := "go.mod", sourcePaths := [["src"]], srcIgnorePaths := []
           excludePatterns := [], children := [] }]
        [{ name := "ex", path := ["p"], runtime := { type := "Go", version := "" }
           manifestFile := "go.mod", sourcePaths := [[]], srcIgnorePaths := [["old"]]
           excludePatterns := ["keep"], children := [] },
         { name := "solo", path := ["q"], runtime := { type := "Rust", version := "" }
           manifestFile := "Cargo.toml", sourcePaths := [["src"]], srcIgnorePaths := []
           excludePatterns := [], children := [] }]
        none := by
  constructor
  · exact (c7_merge_preserves_user_fields _ _ none (fun q => rfl) (by decide) (by decide)).1
      _ (by simp) _ (by simp) rfl
  · exact (c7_merge_preserves_user_fields _ _ none (fun q => rfl) (by decide) (by decide)).2.2
      _ (by simp) (by intro d hd; simp at hd; subst hd; decide)

end RepoCtr

namespace RepoCtr

/-! ## C5 -/

/-- The walk events that reach the counting stage: files passing the
extension filter and the effective matcher. -/
def eligVisit (m : Matcher) (fpMatch : String → String → Bool) (proj : Project) :
    Visit → Option (List String × String)
  | .vdir _ => none
  | .vfile p c =>
    if isSourceFile p proj.runtime.type && !(m.shouldIgnoreFile fpMatch p) then some (p, c)
    else none

/-- The countable file encounters one source path produces, in encounter
order (with duplicates when source paths overlap). -/
def eligOfSrcPath (fsRoot : FSEntry) (m : Matcher) (fpMatch : String → String → Bool)
    (proj : Project) (projectPath srcPath : List String) : List (List String × String) :=
  match fsLookup (projectPath ++ srcPath) fsRoot with
  | none => []
  | some (.file _ c) => [(projectPath ++ srcPath, c)]
  | some (.dir n es) =>
    (walkAt (dirPruned m fpMatch proj projectPath) (projectPath ++ srcPath)
      (.dir n es)).filterMap (eligVisit m fpMatch proj)

/-- All countable file encounters of a project's counting pass. -/
def eligEncounters (fsRoot : FSEntry) (m : Matcher) (fpMatch : String → String → Bool)
    (proj : Project) : List (List String × String) :=
  proj.sourcePaths.flatMap (eligOfSrcPath fsRoot m fpMatch proj proj.path)

/-- Keep the first encounter of each path not in `seen`. -/
def dedupFirst (seen : List (List String)) : List (List String × String) →
    List (List String × String)
  | [] => []
  | e :: rest =>
    if seen.contains e.1 then dedupFirst seen rest
    else e :: dedupFirst (seen ++ [e.1]) rest

/-- `dedupFirst` distributes over appending, threading the seen set. -/
theorem dedupFirst_append (a : List (List String × String)) :
    ∀ (seen : List (List String)) (b : List (List String × String)),
      dedupFirst seen (a ++ b) =
        dedupFirst seen a ++
          dedupFirst (seen ++ (dedupFirst seen a).map Prod.fst) b := by
  induction a with
  | nil => intro seen b; simp [dedupFirst]
  | cons e rest ih =>
    intro seen b
    by_cases h : seen.contains e.1
    · simp only [List.cons_append, dedupFirst, h, if_true]
      exact ih seen b
    · have hpm : e.1 ∉ seen := fun hm => h (List.elem_iff.2 hm)
      have heq : dedupFirst seen ((e :: rest) ++ b) =
          e :: dedupFirst (seen ++ [e.1]) (rest ++ b) := by
        rw [List.cons_append]
        simp [dedupFirst, hpm]
      have heq2 : dedupFirst seen (e :: rest) = e :: dedupFirst (seen ++ [e.1]) rest := by
        simp [dedupFirst, hpm]
      rw [heq, ih (seen ++ [e.1]) b, heq2]
      simp [List.append_assoc]

/-- The keys kept by `dedupFirst` avoid the seen set and are pairwise
distinct. -/
theorem dedupFirst_keys_nodup (l : List (List String × String)) :
    ∀ seen : List (List String),
      (∀ p ∈ (dedupFirst seen l).map Prod.fst, p ∉ seen) ∧
      ((dedupFirst seen l).map Prod.fst).Nodup := by
  induction l with
  | nil => intro seen; exact ⟨by simp [dedupFirst], by simp [dedupFirst]⟩
  | cons e rest ih =>
    intro seen
    by_cases h : e.1 ∈ seen
    · have hc : seen.contains e.1 = true := List.elem_iff.2 h
      simp only [dedupFirst, hc, if_true]
      exact ih seen
    · have hc : ¬(seen.contains e.1 = true) := fun hh => h (List.elem_iff.1 hh)
      obtain ⟨hav, hnd⟩ := ih (seen ++ [e.1])
      simp only [dedupFirst, hc, Bool.false_eq_true, ite_false, List.map_cons]
      refine ⟨?_, ?_⟩
      · intro p hp
        rcases List.mem_cons.1 hp with rfl | hp2
        · exact h
        · intro hps
          exact hav p hp2 (List.mem_append_left _ hps)
      · rw [List.nodup_cons]
        refine ⟨?_, hnd⟩
        intro hmem
        exact hav e.1 hmem (List.mem_append_right _ (List.mem_singleton.2 rfl))

/-- Every encountered path survives into the deduplicated list unless
already seen. -/
theorem dedupFirst_mem_keys (l : List (List String × String)) :
    ∀ (seen : List (List String)) (p : List String),
      p ∈ l.map Prod.fst → p ∉ seen → p ∈ (dedupFirst seen l).map Prod.fst := by
  induction l with
  | nil => intro _ _ h; intro _; cases h
  | cons e rest ih =>
    intro seen p hp hns
    rw [List.map_cons] at hp
    by_cases h : e.1 ∈ seen
    · have hc : seen.contains e.1 = true := List.elem_iff.2 h
      simp only [dedupFirst, hc, if_true]
      rcases List.mem_cons.1 hp with rfl | hp2
      · exact absurd h hns
      · exact ih seen p hp2 hns
    · have hc : ¬(seen.contains e.1 = true) := fun hh => h (List.elem_iff.1 hh)
      simp only [dedupFirst, hc, Bool.false_eq_true, ite_false, List.map_cons]
      rcases List.mem_cons.1 hp with rfl | hp2
      · exact List.mem_cons_self _ _
      · by_cases hpe : p = e.1
        · exact hpe ▸ List.mem_cons_self _ _
        · refine List.mem_cons_of_mem _ (ih (seen ++ [e.1]) p hp2 ?_)
          intro hmem
          rcases List.mem_append.1 hmem with hs | hs
          · exact hns hs
          · exact hpe (List.mem_singleton.1 hs)

end RepoCtr

namespace RepoCtr

/-- The counted stats of one eligible encounter. -/
def countOf (e : List String × String) : FileStats := countFile e.1 e.2

/-- Characterization of the walk-callback fold of `CountProject`: starting
from any accumulator, the pass counts exactly the first encounter of each
eligible file not already seen, in encounter order. -/
theorem foldl_visitStep_spec (m : Matcher) (fpMatch : String → String → Bool)
    (proj : Project) (visits : List Visit) :
    ∀ acc : CountAcc,
      (visits.foldl (visitStep m fpMatch proj) acc).seen =
        acc.seen ++
          (dedupFirst acc.seen (visits.filterMap (eligVisit m fpMatch proj))).map Prod.fst ∧
      (visits.foldl (visitStep m fpMatch proj) acc).totalFiles =
        acc.totalFiles +
          (dedupFirst acc.seen (visits.filterMap (eligVisit m fpMatch proj))).length ∧
      (visits.foldl (visitStep m fpMatch proj) acc).totalLines =
        acc.totalLines +
          ((dedupFirst acc.seen (visits.filterMap (eligVisit m fpMatch proj))).map
            (fun e => (countOf e).lines)).sum ∧
      (visits.foldl (visitStep m fpMatch proj) acc).blankLines =
        acc.blankLines +
          ((dedupFirst acc.seen (visits.filterMap (eligVisit m fpMatch proj))).map
            (fun e => (countOf e).blankLines)).sum ∧
      (visits.foldl (visitStep m fpMatch proj) acc).codeLines =
        acc.codeLines +
          ((dedupFirst acc.seen (visits.filterMap (eligVisit m fpMatch proj))).map
            (fun e => (countOf e).codeLines)).sum ∧
      (visits.foldl (visitStep m fpMatch proj) acc).totalSize =
        acc.totalSize +
          ((dedupFirst acc.seen (visits.filterMap (eligVisit m fpMatch proj))).map
            (fun e => (countOf e).size)).sum ∧
      (visits.foldl (visitStep m fpMatch proj) acc).allFiles =
        acc.allFiles ++
          (dedupFirst acc.seen (visits.filterMap (eligVisit m fpMatch proj))).map countOf := by
  induction visits with
  | nil =>
    intro acc
    simp [dedupFirst]
  | cons v rest ih =>
    intro acc
    cases v with
    | vdir p =>
      have hstep : (visitStep m fpMatch proj acc (.vdir p)).seen = acc.seen ∧
          (visitStep m fpMatch proj acc (.vdir p)).totalFiles = acc.totalFiles ∧
          (visitStep m fpMatch proj acc (.vdir p)).totalLines = acc.totalLines ∧
          (visitStep m fpMatch proj acc (.vdir p)).blankLines = acc.blankLines ∧
          (visitStep m fpMatch proj acc (.vdir p)).codeLines = acc.codeLines ∧
          (visitStep m fpMatch proj acc (.vdir p)).totalSize = acc.totalSize ∧
          (visitStep m fpMatch proj acc (.vdir p)).allFiles = acc.allFiles := by
        by_cases hf : p ∈ acc.folders <;> simp [visitStep, hf]
      obtain ⟨h1, h2, h3, h4, h5, h6, h7⟩ := hstep
      obtain ⟨g1, g2, g3, g4, g5, g6, g7⟩ := ih (visitStep m fpMatch proj acc (.vdir p))
      rw [List.foldl_cons] at *
      rw [g1, g2, g3, g4, g5, g6, g7, h1, h2, h3, h4, h5, h6, h7]
      simp [List.filterMap_cons, eligVisit]
    | vfile p c =>
      rw [List.foldl_cons]
      by_cases hsrc : isSourceFile p proj.runtime.type
      · by_cases hig : m.shouldIgnoreFile fpMatch p = true
        · have hstep : visitStep m fpMatch proj acc (.vfile p c) = acc := by
            simp [visitStep, hsrc, hig]
          have helig : eligVisit m fpMatch proj (.vfile p c) = none := by
            simp [eligVisit, hsrc, hig]
          rw [hstep, List.filterMap_cons, helig]
          exact ih acc
        · have helig : eligVisit m fpMatch proj (.vfile p c) = some (p, c) := by
            simp [eligVisit, hsrc, hig]
          by_cases hseen : p ∈ acc.seen
          · have hstep : visitStep m fpMatch proj acc (.vfile p c) = acc := by
              simp [visitStep, hsrc, hig, hseen]
            rw [hstep, List.filterMap_cons, helig]
            have hded : dedupFirst acc.seen
                  ((p, c) :: rest.filterMap (eligVisit m fpMatch proj)) =
                dedupFirst acc.seen (rest.filterMap (eligVisit m fpMatch proj)) := by
              simp [dedupFirst, hseen]
            rw [hded]
            exact ih acc
          · have hstep : visitStep m fpMatch proj acc (.vfile p c) =
                acc.addFile (countFile p c) := by
              simp [visitStep, hsrc, hig, hseen]
            rw [hstep, List.filterMap_cons, helig]
            have hded : dedupFirst acc.seen
                  ((p, c) :: rest.filterMap (eligVisit m fpMatch proj)) =
                (p, c) ::
                  dedupFirst (acc.seen ++ [p]) (rest.filterMap (eligVisit m fpMatch proj)) := by
              simp [dedupFirst, hseen]
            rw [hded]
            obtain ⟨g1, g2, g3, g4, g5, g6, g7⟩ := ih (acc.addFile (countFile p c))
            have haf : (acc.addFile (countFile p c)).seen = acc.seen ++ [p] := by
              simp [CountAcc.addFile, countFile]
            rw [haf] at g1 g2 g3 g4 g5 g6 g7
            refine ⟨?_, ?_, ?_, ?_, ?_, ?_, ?_⟩
            · rw [g1]
              simp [CountAcc.addFile, countFile, List.append_assoc]
            · rw [g2]
              simp [CountAcc.addFile]
              omega
            · rw [g3]
              simp [CountAcc.addFile, countOf]
              omega
            · rw [g4]
              simp [CountAcc.addFile, countOf]
              omega
            · rw [g5]
              simp [CountAcc.addFile, countOf]
              omega
            · rw [g6]
              simp [CountAcc.addFile, countOf]
              omega
            · rw [g7]
              simp [CountAcc.addFile, countOf, List.append_assoc]
      · have hstep : visitStep m fpMatch proj acc (.vfile p c) = acc := by
          simp [visitStep, hsrc]
        have helig : eligVisit m fpMatch proj (.vfile p c) = none := by
          simp [eligVisit, hsrc]
        rw [hstep, List.filterMap_cons, helig]
        exact ih acc

end RepoCtr

namespace RepoCtr

/-- Characterization of one source-path step of `CountProject`. -/
theorem srcPathStep_spec (fsRoot : FSEntry) (m : Matcher)
    (fpMatch : String → String → Bool) (proj : Project)
    (projectPath srcPath : List String) (acc : CountAcc) :
    (srcPathStep fsRoot m fpMatch proj projectPath acc srcPath).seen =
      acc.seen ++
        (dedupFirst acc.seen
          (eligOfSrcPath fsRoot m fpMatch proj projectPath srcPath)).map Prod.fst ∧
    (srcPathStep fsRoot m fpMatch proj projectPath acc srcPath).totalFiles =
      acc.totalFiles +
        (dedupFirst acc.seen (eligOfSrcPath fsRoot m fpMatch proj projectPath srcPath)).length ∧
    (srcPathStep fsRoot m fpMatch proj projectPath acc srcPath).totalLines =
      acc.totalLines +
        ((dedupFirst acc.seen (eligOfSrcPath fsRoot m fpMatch proj projectPath srcPath)).map
          (fun e => (countOf e).lines)).sum ∧
    (srcPathStep fsRoot m fpMatch proj projectPath acc srcPath).blankLines =
      acc.blankLines +
        ((dedupFirst acc.seen (eligOfSrcPath fsRoot m fpMatch proj projectPath srcPath)).map
          (fun e => (countOf e).blankLines)).sum ∧
    (srcPathStep fsRoot m fpMatch proj projectPath acc srcPath).codeLines =
      acc.codeLines +
        ((dedupFirst acc.seen (eligOfSrcPath fsRoot m fpMatch proj projectPath srcPath)).map
          (fun e => (countOf e).codeLines)).sum ∧
    (srcPathStep fsRoot m fpMatch proj projectPath acc srcPath).totalSize =
      acc.totalSize +
        ((dedupFirst acc.seen (eligOfSrcPath fsRoot m fpMatch proj projectPath srcPath)).map
          (fun e => (countOf e).size)).sum ∧
    (srcPathStep fsRoot m fpMatch proj projectPath acc srcPath).allFiles =
      acc.allFiles ++
        (dedupFirst acc.seen (eligOfSrcPath fsRoot m fpMatch proj projectPath srcPath)).map
          countOf := by
  unfold srcPathStep eligOfSrcPath
  cases hfs : fsLookup (projectPath ++ srcPath) fsRoot with
  | none => simp [hfs, dedupFirst]
  | some entry =>
    cases entry with
    | file n content =>
      by_cases hseen : (projectPath ++ srcPath) ∈ acc.seen
      · simp [hfs, hseen, dedupFirst]
      · simp [hfs, hseen, dedupFirst, CountAcc.addFile, countOf, countFile]
    | dir n es =>
      simp only [hfs]
      exact foldl_visitStep_spec m fpMatch proj
        (walkAt (dirPruned m fpMatch proj projectPath) (projectPath ++ srcPath) (.dir n es)) acc

/-- Characterization of the whole source-path loop of `CountProject`. -/
theorem foldl_srcPathStep_spec (fsRoot : FSEntry) (m : Matcher)
    (fpMatch : String → String → Bool) (proj : Project) (projectPath : List String)
    (srcPaths : List (List String)) :
    ∀ acc : CountAcc,
      (srcPaths.foldl (srcPathStep fsRoot m fpMatch proj projectPath) acc).seen =
        acc.seen ++
          (dedupFirst acc.seen
            (srcPaths.flatMap (eligOfSrcPath fsRoot m fpMatch proj projectPath))).map
            Prod.fst ∧
      (srcPaths.foldl (srcPathStep fsRoot m fpMatch proj projectPath) acc).totalFiles =
        acc.totalFiles +
          (dedupFirst acc.seen
            (srcPaths.flatMap (eligOfSrcPath fsRoot m fpMatch proj projectPath))).length ∧
      (srcPaths.foldl (srcPathStep fsRoot m fpMatch proj projectPath) acc).totalLines =
        acc.totalLines +
          ((dedupFirst acc.seen
            (srcPaths.flatMap (eligOfSrcPath fsRoot m fpMatch proj projectPath))).map
            (fun e => (countOf e).lines)).sum ∧
      (srcPaths.foldl (srcPathStep fsRoot m fpMatch proj projectPath) acc).blankLines =
        acc.blankLines +
          ((dedupFirst acc.seen
            (srcPaths.flatMap (eligOfSrcPath fsRoot m fpMatch proj projectPath))).map
            (fun e => (countOf e).blankLines)).sum ∧
      (srcPaths.foldl (srcPathStep fsRoot m fpMatch proj projectPath) acc).codeLines =
        acc.codeLines +
          ((dedupFirst acc.seen
            (srcPaths.flatMap (eligOfSrcPath fsRoot m fpMatch proj projectPath))).map
            (fun e => (countOf e).codeLines)).sum ∧
      (srcPaths.foldl (srcPathStep fsRoot m fpMatch proj projectPath) acc).totalSize =
        acc.totalSize +
          ((dedupFirst acc.seen
            (srcPaths.flatMap (eligOfSrcPath fsRoot m fpMatch proj projectPath))).map
            (fun e => (countOf e).size)).sum ∧
      (srcPaths.foldl (srcPathStep fsRoot m fpMatch proj projectPath) acc).allFiles =
        acc.allFiles ++
          (dedupFirst acc.seen
            (srcPaths.flatMap (eligOfSrcPath fsRoot m fpMatch proj projectPath))).map
            countOf := by
  induction srcPaths with
  | nil =>
    intro acc
    simp [dedupFirst]
  | cons s rest ih =>
    intro acc
    obtain ⟨s1, s2, s3, s4, s5, s6, s7⟩ :=
      srcPathStep_spec fsRoot m fpMatch proj projectPath s acc
    obtain ⟨g1, g2, g3, g4, g5, g6, g7⟩ :=
      ih (srcPathStep fsRoot m fpMatch proj projectPath acc s)
    rw [List.foldl_cons]
    rw [List.flatMap_cons,
      dedupFirst_append (eligOfSrcPath fsRoot m fpMatch proj projectPath s) acc.seen]
    rw [g1, g2, g3, g4, g5, g6, g7, s1, s2, s3, s4, s5, s6, s7]
    refine ⟨by simp [List.append_assoc], ?_, ?_, ?_, ?_, ?_, by simp [List.append_assoc]⟩ <;>
      simp <;> omega

end RepoCtr

namespace RepoCtr

/-- Deduplicated keys come from the original list. -/
theorem dedupFirst_keys_subset (l : List (List String × String)) :
    ∀ (seen : List (List String)) (p : List String),
      p ∈ (dedupFirst seen l).map Prod.fst → p ∈ l.map Prod.fst := by
  induction l with
  | nil =>
    intro seen p h
    simp [dedupFirst] at h
  | cons e rest ih =>
    intro seen p h
    rw [List.map_cons]
    by_cases hc : e.1 ∈ seen
    · have hb : seen.contains e.1 = true := List.elem_iff.2 hc
      rw [dedupFirst, if_pos hb] at h
      exact List.mem_cons_of_mem _ (ih seen p h)
    · have hb : ¬(seen.contains e.1 = true) := fun hh => hc (List.elem_iff.1 hh)
      rw [dedupFirst, if_neg hb, List.map_cons] at h
      rcases List.mem_cons.1 h with rfl | h2
      · exact List.mem_cons_self _ _
      · exact List.mem_cons_of_mem _ (ih (seen ++ [e.1]) p h2)

/-- In a duplicate-free list every member is counted once. -/
theorem count_one_of_nodup_mem [BEq α] [LawfulBEq α] (p : α) :
    ∀ l : List α, l.Nodup → p ∈ l → l.count p = 1 := by
  intro l
  induction l with
  | nil => intro _ h; cases h
  | cons x xs ih =>
    intro hN hp
    rw [List.nodup_cons] at hN
    rcases List.mem_cons.1 hp with rfl | hp2
    · rw [List.count_cons_self, List.count_eq_zero.2 hN.1]
    · have hne : p ≠ x := fun hEq => hN.1 (by rw [← hEq]; exact hp2)
      rw [List.count_cons_of_ne hne xs, ih hN.2 hp2]

/-- Inserting into a list permutes consing onto it. -/
theorem insertLe_perm (le : α → α → Bool) (x : α) (l : List α) :
    (insertLe le x l).Perm (x :: l) := by
  induction l with
  | nil => exact List.Perm.refl _
  | cons y ys ih =>
    by_cases h : le x y
    · simp [insertLe, h]
    · rw [insertLe, if_neg h]
      exact (ih.cons y).trans (List.Perm.swap x y ys)

/-- Insertion sort permutes its input. -/
theorem insSortBy_perm (le : α → α → Bool) (l : List α) : (insSortBy le l).Perm l := by
  induction l with
  | nil => exact List.Perm.refl _
  | cons x xs ih =>
    exact (insertLe_perm le x (insSortBy le xs)).trans (ih.cons x)

/-- C5: within a single `CountProject` pass, a physical file reachable
through two or more overlapping declared source paths — identified by its
absolute path — contributes exactly once to `TotalFiles` and
`TotalLines`: the counted encounters are the eligible encounters with all
repeats of a path dropped, so `TotalFiles` counts distinct paths,
`TotalLines` adds each file's lines once, the counted path list is
duplicate-free, every path that is encountered at all is kept exactly once
(`min(encounters, 1)`), and `AllFiles` is a permutation of the counted
files. -/
theorem c5_countProject_dedup (fsRoot : FSEntry) (base : Matcher)
    (cfg : Option RepoCtrConfig) (fpMatch : String → String → Bool) (proj : Project) :
    (countProject fsRoot base cfg fpMatch proj).totalFiles =
      (dedupFirst []
        (eligEncounters fsRoot (effectiveMatcher base cfg proj) fpMatch proj)).length ∧
    (countProject fsRoot base cfg fpMatch proj).totalLines =
      ((dedupFirst []
        (eligEncounters fsRoot (effectiveMatcher base cfg proj) fpMatch proj)).map
          (fun e => (countOf e).lines)).sum ∧
    ((dedupFirst []
        (eligEncounters fsRoot (effectiveMatcher base cfg proj) fpMatch proj)).map
          Prod.fst).Nodup ∧
    (∀ p : List String,
      ((dedupFirst []
          (eligEncounters fsRoot (effectiveMatcher base cfg proj) fpMatch proj)).map
            Prod.fst).count p =
        min (((eligEncounters fsRoot (effectiveMatcher base cfg proj) fpMatch proj).map
            Prod.fst).count p) 1) ∧
    (countProject fsRoot base cfg fpMatch proj).allFiles.Perm
      ((dedupFirst []
        (eligEncounters fsRoot (effectiveMatcher base cfg proj) fpMatch proj)).map
          countOf) := by
  obtain ⟨g1, g2, g3, g4, g5, g6, g7⟩ :=
    foldl_srcPathStep_spec fsRoot (effectiveMatcher base cfg proj) fpMatch proj proj.path
      proj.sourcePaths CountAcc.init
  have hinit : CountAcc.init.seen = ([] : List (List String)) := rfl
  rw [hinit] at g1 g2 g3 g4 g5 g6 g7
  refine ⟨?_, ?_, ?_, ?_, ?_⟩
  · simp only [countProject, eligEncounters]
    rw [g2]
    simp [CountAcc.init]
  · simp only [countProject, eligEncounters]
    rw [g3]
    simp [CountAcc.init]
  · exact (dedupFirst_keys_nodup _ []).2
  · intro p
    by_cases hp : p ∈ (eligEncounters fsRoot (effectiveMatcher base cfg proj) fpMatch proj).map
        Prod.fst
    · have hmem := dedupFirst_mem_keys _ [] p hp (by simp)
      have h2 : 0 < ((eligEncounters fsRoot (effectiveMatcher base cfg proj) fpMatch
          proj).map Prod.fst).count p := List.count_pos_iff.2 hp
      rw [min_eq_right h2]
      exact count_one_of_nodup_mem p _ (dedupFirst_keys_nodup _ []).2 hmem
    · have hnd : p ∉ (dedupFirst []
          (eligEncounters fsRoot (effectiveMatcher base cfg proj) fpMatch proj)).map
            Prod.fst := fun hmem => hp (dedupFirst_keys_subset _ [] p hmem)
      rw [List.count_eq_zero.2 hnd, List.count_eq_zero.2 hp]
      simp
  · simp only [countProject, eligEncounters]
    refine (insSortBy_perm _ _).trans ?_
    rw [g7]
    simp [CountAcc.init]

end RepoCtr

namespace RepoCtr

/-! ## C1

The `Build` loop is characterized by the parent each project is assigned
at its processing time (`parentsAux`); roots and children lists are then
order-preserving projections of that assignment, over which the
permutation and ordering facts of `Flatten` are proved. -/

/-- The parent assignment the `Build` loop makes, entry by entry: each
entry is recorded in the path map and then looks up its nearest
ancestor. -/
def parentsAux (pm : List (List String × Nat)) : List (Nat × List String) →
    List (Nat × Option Nat)
  | [] => []
  | e :: rest =>
    (e.1, findNearestAncestor e.2 ((e.2, e.1) :: pm)) ::
      parentsAux ((e.2, e.1) :: pm) rest

/-- `Build`'s loop state in terms of the parent assignment. -/
theorem buildRun_spec (entries : List (Nat × List String)) :
    ∀ (pm : List (List String × Nat)) (k : Nat → List Nat) (r : List Nat),
      (entries.foldl buildStep ⟨pm, k, r⟩).pmap =
        (entries.map (fun e => (e.2, e.1))).reverse ++ pm ∧
      (entries.foldl buildStep ⟨pm, k, r⟩).roots =
        r ++ (parentsAux pm entries).filterMap
          (fun x => if x.2 = none then some x.1 else none) ∧
      ∀ j, (entries.foldl buildStep ⟨pm, k, r⟩).kids j =
        k j ++ (parentsAux pm entries).filterMap
          (fun x => if x.2 = some j then some x.1 else none) := by
  induction entries with
  | nil => intro pm k r; exact ⟨by simp, by simp [parentsAux], fun j => by simp [parentsAux]⟩
  | cons e rest ih =>
    intro pm k r
    rw [List.foldl_cons]
    cases hfa : findNearestAncestor e.2 ((e.2, e.1) :: pm) with
    | some parent =>
      have hstep : buildStep ⟨pm, k, r⟩ e =
          ⟨(e.2, e.1) :: pm, fun j => if j = parent then k j ++ [e.1] else k j, r⟩ := by
        simp [buildStep, hfa]
      rw [hstep]
      obtain ⟨h1, h2, h3⟩ := ih ((e.2, e.1) :: pm)
        (fun j => if j = parent then k j ++ [e.1] else k j) r
      refine ⟨by simpa using h1, ?_, ?_⟩
      · rw [h2]
        simp [parentsAux, hfa]
      · intro j
        rw [h3 j]
        by_cases hj : j = parent
        · subst hj
          simp [parentsAux, hfa]
        · have : ¬(some parent = some j) := by
            intro hc
            exact hj (Option.some.inj hc).symm
          simp [parentsAux, hfa, hj, this]
    | none =>
      have hstep : buildStep ⟨pm, k, r⟩ e = ⟨(e.2, e.1) :: pm, k, r ++ [e.1]⟩ := by
        simp [buildStep, hfa]
      rw [hstep]
      obtain ⟨h1, h2, h3⟩ := ih ((e.2, e.1) :: pm) k (r ++ [e.1])
      refine ⟨by simpa using h1, ?_, ?_⟩
      · rw [h2]
        simp [parentsAux, hfa]
      · intro j
        rw [h3 j]
        simp [parentsAux, hfa]

/-- The assigned projects are the processed entries, in order. -/
theorem parentsAux_map_fst (l : List (Nat × List String)) :
    ∀ pm, (parentsAux pm l).map Prod.fst = l.map Prod.fst := by
  induction l with
  | nil => intro pm; rfl
  | cons e rest ih => intro pm; simp [parentsAux, ih]

end RepoCtr

namespace RepoCtr

/-- Looking a key up past a non-matching head entry. -/
theorem lookupPath_cons_ne (pm : List (List String × Nat)) (k : List String) (i : Nat)
    (q : List String) (h : q ≠ k) : lookupPath ((k, i) :: pm) q = lookupPath pm q := by
  simp only [lookupPath, List.find?_cons]
  have : ¬(k = q) := fun hc => h hc.symm
  simp [this]

/-- A successful map lookup names an entry of the map. -/
theorem lookupPath_mem (pm : List (List String × Nat)) (q : List String) (p : Nat)
    (h : lookupPath pm q = some p) : ∃ kv ∈ pm, kv.2 = p := by
  unfold lookupPath at h
  cases hf : pm.find? (fun e => decide (e.1 = q)) with
  | none => rw [hf] at h; cases h
  | some kv =>
    rw [hf] at h
    exact ⟨kv, List.mem_of_find?_eq_some hf, by cases h; rfl⟩

/-- Every hit of the ancestry loop names an entry of the map. -/
theorem walkUpRev_mem (pm : List (List String × Nat)) :
    ∀ (rl : List String) (p : Nat), walkUpRev pm rl = some p → ∃ kv ∈ pm, kv.2 = p := by
  intro rl
  induction rl with
  | nil => intro p h; cases h
  | cons c rest ih =>
    intro p h
    unfold walkUpRev at h
    cases hl : lookupPath pm (c :: rest).reverse with
    | some q => rw [hl] at h; cases h; exact lookupPath_mem _ _ _ hl
    | none => rw [hl] at h; exact ih p h

/-- The ancestry loop only queries keys strictly shorter than the bound, so
an entry with a longer key is transparent to it. -/
theorem walkUpRev_cons_long (pm : List (List String × Nat)) (k : List String) (i : Nat) :
    ∀ (rl : List String), rl.length < k.length →
      walkUpRev ((k, i) :: pm) rl = walkUpRev pm rl := by
  intro rl
  induction rl with
  | nil => intro _; rfl
  | cons c rest ih =>
    intro hlen
    have hq : (c :: rest).reverse ≠ k := by
      intro hc
      have h2 : (c :: rest).reverse.length = k.length := by rw [hc]
      rw [List.length_reverse] at h2
      simp only [List.length_cons] at h2 hlen
      omega
    unfold walkUpRev
    rw [lookupPath_cons_ne pm k i _ hq]
    cases hl : lookupPath pm (c :: rest).reverse with
    | some q => rfl
    | none =>
      have : rest.length < k.length := by
        simp only [List.length_cons] at hlen
        omega
      rw [ih this]

/-- A project's own path-map entry can never be its nearest ancestor: the
loop only queries proper prefixes (and the repository root), all strictly
shorter than the path itself. -/
theorem findNearestAncestor_cons_self (path : List String) (i : Nat)
    (pm : List (List String × Nat)) :
    findNearestAncestor path ((path, i) :: pm) = findNearestAncestor path pm := by
  cases hpath : path with
  | nil => rfl
  | cons c0 crest =>
    unfold findNearestAncestor walkUp
    have hlen : (dirComps (c0 :: crest)).reverse.length < (c0 :: crest).length := by
      simp [dirComps]
    rw [walkUpRev_cons_long pm (c0 :: crest) i _ hlen]
    cases walkUpRev pm (dirComps (c0 :: crest)).reverse with
    | some p => rfl
    | none =>
      simp only [List.isEmpty_cons, Bool.false_eq_true, if_false]
      exact lookupPath_cons_ne pm _ i [] (by simp)

/-- A found nearest ancestor is one of the mapped projects. -/
theorem findNearestAncestor_mem (path : List String) (pm : List (List String × Nat))
    (p : Nat) (h : findNearestAncestor path pm = some p) : ∃ kv ∈ pm, kv.2 = p := by
  unfold findNearestAncestor at h
  cases hw : walkUp pm (dirComps path) with
  | some q => rw [hw] at h; cases h; exact walkUpRev_mem pm _ _ hw
  | none =>
    rw [hw] at h
    by_cases he : path.isEmpty
    · simp [he] at h
    · simp [he] at h
      exact lookupPath_mem pm [] p h

end RepoCtr

namespace RepoCtr

/-- Index of an element past a prefix that does not contain it. -/
theorem indexOf_append_right (l1 l2 : List Nat) (a : Nat) (h : a ∉ l1) :
    (l1 ++ l2).indexOf a = l1.length + l2.indexOf a := by
  induction l1 with
  | nil => simp
  | cons x xs ih =>
    have hxa : x ≠ a := by
      intro hc
      exact h (hc ▸ List.mem_cons_self x xs)
    have hna : a ∉ xs := fun hc => h (List.mem_cons_of_mem _ hc)
    simp only [List.cons_append, List.indexOf_cons_ne _ hxa, ih hna, List.length_cons]
    omega

/-- Every parent that `Build` assigns was processed strictly earlier: its
position in the processing order precedes the child's. -/
theorem parentsAux_parent_rank (l : List (Nat × List String)) :
    ∀ (processed : List (Nat × List String)),
      ((processed ++ l).map Prod.fst).Nodup →
      ∀ i p, (i, some p) ∈ parentsAux ((processed.map (fun e => (e.2, e.1))).reverse) l →
        ((processed ++ l).map Prod.fst).indexOf p <
          ((processed ++ l).map Prod.fst).indexOf i := by
  induction l with
  | nil => intro processed _ i p hmem; cases hmem
  | cons e rest ih =>
    intro processed hnd i p hmem
    rw [parentsAux] at hmem
    rcases List.mem_cons.mp hmem with hhead | htail
    · -- the head entry: its parent was already in the path map
      have hi : i = e.1 := congrArg Prod.fst hhead
      have hfa : findNearestAncestor e.2
          ((e.2, e.1) :: (processed.map (fun x => (x.2, x.1))).reverse) = some p := by
        have := congrArg Prod.snd hhead
        simpa using this.symm
      rw [findNearestAncestor_cons_self] at hfa
      obtain ⟨kv, hkv, hkvp⟩ := findNearestAncestor_mem _ _ _ hfa
      rw [List.mem_reverse, List.mem_map] at hkv
      obtain ⟨x, hx, hxkv⟩ := hkv
      have hp : p ∈ processed.map Prod.fst := by
        rw [← hkvp, ← hxkv]
        exact List.mem_map_of_mem Prod.fst hx
      have hsplit : (processed ++ e :: rest).map Prod.fst =
          processed.map Prod.fst ++ e.1 :: rest.map Prod.fst := by
        simp
      rw [hsplit] at hnd ⊢
      have hnotin : e.1 ∉ processed.map Prod.fst := by
        rcases List.nodup_append.mp hnd with ⟨_, _, hdisj⟩
        intro hc
        exact hdisj hc (List.mem_cons_self _ _)
      rw [hi, List.indexOf_append_of_mem hp,
        indexOf_append_right _ _ _ hnotin, List.indexOf_cons_self]
      have := List.indexOf_lt_length.mpr hp
      omega
    · -- a later entry: induct with the head moved into the processed prefix
      have hrev : ((processed ++ [e]).map (fun x => (x.2, x.1))).reverse =
          (e.2, e.1) :: (processed.map (fun x => (x.2, x.1))).reverse := by
        simp
      have hassoc : (processed ++ [e]) ++ rest = processed ++ e :: rest := by
        rw [List.append_assoc, List.singleton_append]
      have := ih (processed ++ [e]) (by rw [hassoc]; exact hnd) i p (by rw [hrev]; exact htail)
      rw [hassoc] at this
      exact this

end RepoCtr

namespace RepoCtr

/-! The forest the `Build` loop produces over an abstract processing-order
entry list `es`: `plOf` is the parent assignment, and roots/children are
its order-preserving projections (`buildRun_spec`). -/

/-- Parent assignment of a `Build` run starting from the empty path map. -/
def plOf (es : List (Nat × List String)) : List (Nat × Option Nat) :=
  parentsAux [] es

/-- The processed project indices, in processing order. -/
def idsOf (es : List (Nat × List String)) : List Nat := es.map Prod.fst

/-- Root list produced by the `Build` loop. -/
def rootsOf (es : List (Nat × List String)) : List Nat :=
  (plOf es).filterMap (fun x => if x.2 = none then some x.1 else none)

/-- Children list of project `j` produced by the `Build` loop. -/
def kidsOf (es : List (Nat × List String)) (j : Nat) : List Nat :=
  (plOf es).filterMap (fun x => if x.2 = some j then some x.1 else none)

/-- Position of a project in the processing order. -/
def rankOf (es : List (Nat × List String)) (i : Nat) : Nat := (idsOf es).indexOf i

/-- The `Build` loop's roots are the unparented entries in processing
order. -/
theorem buildRun_roots (k0 : Nat → List Nat) (es : List (Nat × List String)) :
    (buildRun k0 es).roots = rootsOf es := by
  have h := (buildRun_spec es [] k0 []).2.1
  simpa [buildRun, rootsOf, plOf] using h

/-- The `Build` loop appends each parented entry to its parent's existing
children, in processing order. -/
theorem buildRun_kids (k0 : Nat → List Nat) (es : List (Nat × List String)) (j : Nat) :
    (buildRun k0 es).kids j = k0 j ++ kidsOf es j := by
  have h := (buildRun_spec es [] k0 []).2.2 j
  simpa [buildRun, kidsOf, plOf] using h

/-- The parent assignment covers exactly the processed projects, in
order. -/
theorem plOf_map_fst (es : List (Nat × List String)) :
    (plOf es).map Prod.fst = idsOf es :=
  parentsAux_map_fst es []

/-- Functionality of an association list with distinct keys. -/
theorem assoc_fun {β : Type} (l : List (Nat × β)) (hnd : (l.map Prod.fst).Nodup)
    (a : Nat) (b c : β) (h1 : (a, b) ∈ l) (h2 : (a, c) ∈ l) : b = c := by
  induction l with
  | nil => cases h1
  | cons x xs ih =>
    rw [List.map_cons, List.nodup_cons] at hnd
    rcases List.mem_cons.mp h1 with h1h | h1t <;> rcases List.mem_cons.mp h2 with h2h | h2t
    · rw [← h1h] at h2h; exact (congrArg Prod.snd h2h).symm
    · exfalso
      apply hnd.1
      have ha : a ∈ xs.map Prod.fst := List.mem_map_of_mem Prod.fst h2t
      rw [← h1h]
      exact ha
    · exfalso
      apply hnd.1
      have ha : a ∈ xs.map Prod.fst := List.mem_map_of_mem Prod.fst h1t
      rw [← h2h]
      exact ha
    · exact ih hnd.2 h1t h2t

/-- Root membership is exactly a `none` parent assignment. -/
theorem mem_rootsOf (es : List (Nat × List String)) (i : Nat) :
    i ∈ rootsOf es ↔ (i, none) ∈ plOf es := by
  unfold rootsOf
  rw [List.mem_filterMap]
  constructor
  · rintro ⟨x, hx, hfx⟩
    by_cases h2 : x.2 = none
    · simp only [h2, if_true] at hfx
      cases hfx
      have : x = (x.1, none) := by
        cases x with
        | mk a b => simp_all
      rw [← this]; exact hx
    · simp [h2] at hfx
  · intro h
    exact ⟨(i, none), h, by simp⟩

/-- Child membership is exactly a `some parent` assignment. -/
theorem mem_kidsOf (es : List (Nat × List String)) (j i : Nat) :
    i ∈ kidsOf es j ↔ (i, some j) ∈ plOf es := by
  unfold kidsOf
  rw [List.mem_filterMap]
  constructor
  · rintro ⟨x, hx, hfx⟩
    by_cases h2 : x.2 = some j
    · simp only [h2, if_true] at hfx
      cases hfx
      have : x = (x.1, some j) := by
        cases x with
        | mk a b => simp_all
      rw [← this]; exact hx
    · simp [h2] at hfx
  · intro h
    exact ⟨(i, some j), h, by simp⟩

end RepoCtr

namespace RepoCtr

/-- The child-to-parent step of the built forest. -/
def stepOf (es : List (Nat × List String)) (a b : Nat) : Prop :=
  (a, some b) ∈ plOf es

/-- Forest ancestry: zero or more parent steps. -/
def AncOf (es : List (Nat × List String)) : Nat → Nat → Prop :=
  Relation.ReflTransGen (stepOf es)

/-- A stepping project was processed. -/
theorem stepOf_mem_left (es : List (Nat × List String)) (a b : Nat)
    (h : stepOf es a b) : a ∈ idsOf es := by
  rw [← plOf_map_fst]
  exact List.mem_map_of_mem Prod.fst h

/-- Each step goes to a strictly earlier processing position. -/
theorem stepOf_rank (es : List (Nat × List String)) (hnd : (idsOf es).Nodup)
    (a b : Nat) (h : stepOf es a b) : rankOf es b < rankOf es a := by
  have := parentsAux_parent_rank es [] (by simpa [idsOf] using hnd) a b (by simpa [plOf] using h)
  simpa [rankOf, idsOf] using this

/-- Anything at a position before a processed project is itself processed. -/
theorem mem_of_rank_lt (es : List (Nat × List String)) (a b : Nat)
    (ha : a ∈ idsOf es) (h : rankOf es b < rankOf es a) : b ∈ idsOf es := by
  have hlt : rankOf es a < (idsOf es).length := List.indexOf_lt_length.mpr ha
  exact List.indexOf_lt_length.mp (Nat.lt_trans h hlt)

/-- A step's parent was processed. -/
theorem stepOf_mem_right (es : List (Nat × List String)) (hnd : (idsOf es).Nodup)
    (a b : Nat) (h : stepOf es a b) : b ∈ idsOf es :=
  mem_of_rank_lt es a b (stepOf_mem_left es a b h) (stepOf_rank es hnd a b h)

/-- Ancestry never moves to a later processing position. -/
theorem ancOf_rank (es : List (Nat × List String)) (hnd : (idsOf es).Nodup)
    (a b : Nat) (h : AncOf es a b) : rankOf es b ≤ rankOf es a := by
  induction h with
  | refl => exact Nat.le_refl _
  | tail _ hstep ih =>
    have := stepOf_rank es hnd _ _ hstep
    omega

/-- Each project has at most one parent. -/
theorem stepOf_fun (es : List (Nat × List String)) (hnd : (idsOf es).Nodup)
    (a b c : Nat) (h1 : stepOf es a b) (h2 : stepOf es a c) : b = c := by
  have := assoc_fun (plOf es) (by rw [plOf_map_fst]; exact hnd) a (some b) (some c) h1 h2
  exact Option.some.inj this

/-- Two ancestors of one project are comparable: parent chains are
deterministic. -/
theorem ancOf_total (es : List (Nat × List String)) (hnd : (idsOf es).Nodup)
    (x a b : Nat) (h1 : AncOf es x a) (h2 : AncOf es x b) :
    AncOf es a b ∨ AncOf es b a :=
  Relation.ReflTransGen.total_of_right_unique
    (fun _ _ _ hl hr => stepOf_fun es hnd _ _ _ hl hr) h1 h2

/-- A root has no parent step. -/
theorem rootsOf_no_step (es : List (Nat × List String)) (hnd : (idsOf es).Nodup)
    (r y : Nat) (hr : r ∈ rootsOf es) (h : stepOf es r y) : False := by
  rw [mem_rootsOf] at hr
  have := assoc_fun (plOf es) (by rw [plOf_map_fst]; exact hnd) r (some y) none h hr
  cases this

/-- Every processed project reaches a root along parent steps. -/
theorem ancOf_root_exists_aux (es : List (Nat × List String)) (hnd : (idsOf es).Nodup) :
    ∀ (m : Nat) (x : Nat), x ∈ idsOf es → rankOf es x ≤ m →
      ∃ r, r ∈ rootsOf es ∧ AncOf es x r := by
  intro m
  induction m with
  | zero =>
    intro x hx hrk
    obtain ⟨e, he, hefst⟩ := List.mem_map.mp (by rw [plOf_map_fst]; exact hx :
      x ∈ (plOf es).map Prod.fst)
    cases hpe : e.2 with
    | none =>
      refine ⟨x, ?_, Relation.ReflTransGen.refl⟩
      rw [mem_rootsOf]
      have : e = (x, none) := by
        cases e with
        | mk u v => simp_all
      rw [← this]; exact he
    | some p =>
      exfalso
      have hstep : stepOf es x p := by
        have he2 : e = (x, some p) := by
          cases e with
          | mk u v => simp_all
        show (x, some p) ∈ plOf es
        rw [← he2]
        exact he
      have := stepOf_rank es hnd x p hstep
      omega
  | succ m ih =>
    intro x hx hrk
    obtain ⟨e, he, hefst⟩ := List.mem_map.mp (by rw [plOf_map_fst]; exact hx :
      x ∈ (plOf es).map Prod.fst)
    cases hpe : e.2 with
    | none =>
      refine ⟨x, ?_, Relation.ReflTransGen.refl⟩
      rw [mem_rootsOf]
      have : e = (x, none) := by
        cases e with
        | mk u v => simp_all
      rw [← this]; exact he
    | some p =>
      have hstep : stepOf es x p := by
        have he2 : e = (x, some p) := by
          cases e with
          | mk u v => simp_all
        show (x, some p) ∈ plOf es
        rw [← he2]
        exact he
      have hrkp := stepOf_rank es hnd x p hstep
      have hp : p ∈ idsOf es := stepOf_mem_right es hnd x p hstep
      obtain ⟨r, hr, hanc⟩ := ih p hp (by omega)
      exact ⟨r, hr, Relation.ReflTransGen.head hstep hanc⟩

/-- Every processed project reaches a root. -/
theorem ancOf_root_exists (es : List (Nat × List String)) (hnd : (idsOf es).Nodup)
    (x : Nat) (hx : x ∈ idsOf es) : ∃ r, r ∈ rootsOf es ∧ AncOf es x r :=
  ancOf_root_exists_aux es hnd (rankOf es x) x hx (Nat.le_refl _)

/-- The root a project reaches is unique. -/
theorem ancOf_root_unique (es : List (Nat × List String)) (hnd : (idsOf es).Nodup)
    (x r1 r2 : Nat) (h1 : r1 ∈ rootsOf es) (h2 : r2 ∈ rootsOf es)
    (ha1 : AncOf es x r1) (ha2 : AncOf es x r2) : r1 = r2 := by
  rcases ancOf_total es hnd x r1 r2 ha1 ha2 with h | h
  · rcases h.cases_head with heq | ⟨y, hy, _⟩
    · exact heq
    · exact absurd hy (fun hc => rootsOf_no_step es hnd r1 y h1 hc)
  · rcases h.cases_head with heq | ⟨y, hy, _⟩
    · exact heq.symm
    · exact absurd hy (fun hc => rootsOf_no_step es hnd r2 y h2 hc)

/-- The child of `j` through which a strict descendant is reached is
unique. -/
theorem ancOf_kid_unique (es : List (Nat × List String)) (hnd : (idsOf es).Nodup)
    (x j c1 c2 : Nat) (h1 : c1 ∈ kidsOf es j) (h2 : c2 ∈ kidsOf es j)
    (ha1 : AncOf es x c1) (ha2 : AncOf es x c2) : c1 = c2 := by
  rw [mem_kidsOf] at h1 h2
  rcases ancOf_total es hnd x c1 c2 ha1 ha2 with h | h
  · rcases h.cases_head with heq | ⟨y, hy, htail⟩
    · exact heq
    · exfalso
      have hyj : y = j := stepOf_fun es hnd c1 y j hy h1
      rw [hyj] at htail
      have hle := ancOf_rank es hnd j c2 htail
      have hlt := stepOf_rank es hnd c2 j h2
      omega
  · rcases h.cases_head with heq | ⟨y, hy, htail⟩
    · exact heq.symm
    · exfalso
      have hyj : y = j := stepOf_fun es hnd c2 y j hy h2
      rw [hyj] at htail
      have hle := ancOf_rank es hnd j c1 htail
      have hlt := stepOf_rank es hnd c1 j h1
      omega

/-- A strict descendant of `j` is reached through one of `j`'s
children. -/
theorem ancOf_kid_exists (es : List (Nat × List String)) (i : Nat) :
    ∀ (x : Nat), AncOf es x i → x ≠ i → ∃ c, c ∈ kidsOf es i ∧ AncOf es x c := by
  intro x h
  induction h using Relation.ReflTransGen.head_induction_on with
  | refl => intro hne; exact absurd rfl hne
  | head hstep htail ih =>
    intro _
    rename_i s y _
    by_cases hy : y = i
    · refine ⟨s, ?_, Relation.ReflTransGen.refl⟩
      rw [mem_kidsOf]
      rw [hy] at hstep
      exact hstep
    · obtain ⟨c, hc, hanc⟩ := ih hy
      exact ⟨c, hc, Relation.ReflTransGen.head hstep hanc⟩

end RepoCtr

namespace RepoCtr

/-- Flatten of the empty level is empty at any fuel. -/
theorem flattenAux_nil (k : Nat → List Nat) (f : Nat) : flattenAux k f [] = [] := by
  cases f <;> rfl

/-- Flatten emits a level head's subtree and then the rest of the
level. -/
theorem flattenAux_cons (k : Nat → List Nat) (f : Nat) (i : Nat) (l : List Nat) :
    flattenAux k f (i :: l) = flattenAux k f [i] ++ flattenAux k f l := by
  cases f <;> simp [flattenAux, flattenLevel]

/-- Flatten of a level is the concatenation of its members' subtrees. -/
theorem flattenAux_flatMap (k : Nat → List Nat) (f : Nat) :
    ∀ (l : List Nat), flattenAux k f l = l.flatMap (fun i => flattenAux k f [i]) := by
  intro l
  induction l with
  | nil => rw [flattenAux_nil]; rfl
  | cons i rest ih => rw [flattenAux_cons, ih, List.flatMap_cons]

/-- A single subtree with fuel to spare: the node, then its children's
subtrees. -/
theorem flattenAux_singleton (k : Nat → List Nat) (f : Nat) (i : Nat) :
    flattenAux k (f + 1) [i] = i :: flattenAux k f (k i) := by
  simp [flattenAux, flattenLevel]

/-- Flatten at zero fuel emits the level itself. -/
theorem flattenAux_zero (k : Nat → List Nat) : ∀ (l : List Nat), flattenAux k 0 l = l := by
  intro l
  induction l with
  | nil => rfl
  | cons i rest ih => simp [flattenAux, flattenLevel] at ih ⊢; exact ih

/-- A childless node's subtree is itself, at any fuel. -/
theorem flattenAux_leaf (k : Nat → List Nat) (f : Nat) (i : Nat) (h : k i = []) :
    flattenAux k f [i] = [i] := by
  cases f with
  | zero => exact flattenAux_zero k [i]
  | succ f => rw [flattenAux_singleton, h, flattenAux_nil]

/-- The subtree starts with its node. -/
theorem head_sublist_flattenAux (k : Nat → List Nat) (f : Nat) (i : Nat) :
    List.Sublist [i] (flattenAux k f [i]) := by
  cases f with
  | zero => rw [flattenAux_zero]
  | succ f =>
    rw [flattenAux_singleton]
    exact (List.nil_sublist _).cons₂ i

/-- A member's image is a sublist of the concatenated images. -/
theorem mem_flatMap_sublist {α β : Type} (l : List α) (f : α → List β) (a : α)
    (h : a ∈ l) : List.Sublist (f a) (l.flatMap f) := by
  obtain ⟨u, v, rfl⟩ := List.append_of_mem h
  rw [List.flatMap_append, List.flatMap_cons]
  exact ((f a).sublist_append_left (v.flatMap f)).trans
    ((u.flatMap f).nil_sublist.append (List.Sublist.refl _))

/-- Concatenated images agree when the images agree on members. -/
theorem flatMap_congr_mem {α β : Type} (l : List α) (f g : α → List β)
    (h : ∀ a ∈ l, f a = g a) : l.flatMap f = l.flatMap g := by
  induction l with
  | nil => rfl
  | cons x xs ih =>
    rw [List.flatMap_cons, List.flatMap_cons, h x (List.mem_cons_self x xs),
      ih (fun a ha => h a (List.mem_cons_of_mem x ha))]

/-- The key projection of a filtered assignment is a sublist of all
keys. -/
theorem filterMap_fst_sublist (P : Nat × Option Nat → Prop) [DecidablePred P] :
    ∀ (pl : List (Nat × Option Nat)),
      List.Sublist (pl.filterMap (fun x => if P x then some x.1 else none))
        (pl.map Prod.fst) := by
  intro pl
  induction pl with
  | nil => exact List.Sublist.refl []
  | cons x xs ih =>
    rw [List.filterMap_cons, List.map_cons]
    by_cases hp : P x
    · simp only [hp, if_true]
      exact ih.cons₂ x.1
    · simp only [hp, if_false]
      exact ih.cons x.1

/-- Children lists are duplicate-free when the processing order is. -/
theorem kidsOf_nodup (es : List (Nat × List String)) (hnd : (idsOf es).Nodup) (j : Nat) :
    (kidsOf es j).Nodup :=
  (filterMap_fst_sublist (fun x => x.2 = some j) (plOf es)).nodup
    (by rw [plOf_map_fst]; exact hnd)

/-- The root list is duplicate-free when the processing order is. -/
theorem rootsOf_nodup (es : List (Nat × List String)) (hnd : (idsOf es).Nodup) :
    (rootsOf es).Nodup :=
  (filterMap_fst_sublist (fun x => x.2 = none) (plOf es)).nodup
    (by rw [plOf_map_fst]; exact hnd)

/-- A child sits strictly later in processing order than its parent, and
both are processed. -/
theorem kidsOf_rank (es : List (Nat × List String)) (hnd : (idsOf es).Nodup)
    (j c : Nat) (hc : c ∈ kidsOf es j) :
    rankOf es j < rankOf es c ∧ c ∈ idsOf es ∧ j ∈ idsOf es := by
  rw [mem_kidsOf] at hc
  exact ⟨stepOf_rank es hnd c j hc, stepOf_mem_left es c j hc,
    stepOf_mem_right es hnd c j hc⟩

end RepoCtr

namespace RepoCtr

/-- Counting distributes over concatenated images. -/
theorem count_flatMap (l : List Nat) (f : Nat → List Nat) (a : Nat) :
    (l.flatMap f).count a = (l.map (fun x => (f x).count a)).sum := by
  induction l with
  | nil => rfl
  | cons x xs ih => simp [List.flatMap_cons, List.count_append, ih]

/-- A sum of naturals over a duplicate-free list with a single `1` and
zeros elsewhere. -/
theorem sum_map_single (g : Nat → Nat) :
    ∀ (l : List Nat), l.Nodup → ∀ c0, c0 ∈ l → g c0 = 1 →
      (∀ c ∈ l, c ≠ c0 → g c = 0) → (l.map g).sum = 1 := by
  intro l
  induction l with
  | nil => intro _ c0 hc0; cases hc0
  | cons x xs ih =>
    intro hnd c0 hc0 h1 h0
    rw [List.nodup_cons] at hnd
    rcases List.mem_cons.mp hc0 with heq | hmem
    · have hz : ∀ c ∈ xs, g c = 0 := by
        intro c hc
        refine h0 c (List.mem_cons_of_mem x hc) ?_
        intro hcc
        rw [heq] at hcc
        exact hnd.1 (hcc ▸ hc)
      have : (xs.map g).sum = 0 := List.sum_eq_zero (by
        intro y hy
        obtain ⟨c, hc, rfl⟩ := List.mem_map.mp hy
        exact hz c hc)
      rw [List.map_cons, List.sum_cons, this, ← heq, h1]
    · have hx0 : g x = 0 := by
        refine h0 x (List.mem_cons_self x xs) ?_
        intro hxc
        exact hnd.1 (hxc ▸ hmem)
      rw [List.map_cons, List.sum_cons, hx0,
        ih hnd.2 c0 hmem h1 (fun c hc hne => h0 c (List.mem_cons_of_mem x hc) hne)]

/-- Last-processed projects have no children. -/
theorem kidsOf_last_nil (es : List (Nat × List String)) (hnd : (idsOf es).Nodup)
    (i : Nat) (_hi : i ∈ idsOf es)
    (hd : (idsOf es).length - 1 - rankOf es i = 0) : kidsOf es i = [] := by
  rw [List.eq_nil_iff_forall_not_mem]
  intro c hc
  obtain ⟨hlt, hcm, _⟩ := kidsOf_rank es hnd i c hc
  have h1 : rankOf es c < (idsOf es).length := List.indexOf_lt_length.mpr hcm
  omega

/-- The subtree of a project does not depend on the fuel once the fuel
covers the processing positions below it. -/
theorem flattenAux_fuel_stable (es : List (Nat × List String)) (hnd : (idsOf es).Nodup) :
    ∀ (m : Nat) (i : Nat), i ∈ idsOf es →
      (idsOf es).length - 1 - rankOf es i ≤ m →
      ∀ f1 f2, (idsOf es).length - 1 - rankOf es i ≤ f1 →
        (idsOf es).length - 1 - rankOf es i ≤ f2 →
        flattenAux (kidsOf es) f1 [i] = flattenAux (kidsOf es) f2 [i] := by
  intro m
  induction m with
  | zero =>
    intro i hi hd f1 f2 _ _
    have hnil := kidsOf_last_nil es hnd i hi (by omega)
    rw [flattenAux_leaf _ _ _ hnil, flattenAux_leaf _ _ _ hnil]
  | succ m ih =>
    intro i hi hd f1 f2 h1 h2
    by_cases hd0 : (idsOf es).length - 1 - rankOf es i = 0
    · have hnil := kidsOf_last_nil es hnd i hi hd0
      rw [flattenAux_leaf _ _ _ hnil, flattenAux_leaf _ _ _ hnil]
    · cases f1 with
      | zero => omega
      | succ g1 =>
        cases f2 with
        | zero => omega
        | succ g2 =>
          rw [flattenAux_singleton, flattenAux_singleton,
            flattenAux_flatMap _ g1, flattenAux_flatMap _ g2]
          refine congrArg (i :: ·) (flatMap_congr_mem _ _ _ ?_)
          intro c hc
          obtain ⟨hlt, hcm, _⟩ := kidsOf_rank es hnd i c hc
          have hcl : rankOf es c < (idsOf es).length := List.indexOf_lt_length.mpr hcm
          exact ih c hcm (by omega) g1 g2 (by omega) (by omega)

/-- Occurrence count inside a subtree: one for each project whose parent
chain passes through the subtree's node, zero otherwise. -/
theorem flattenAux_count (es : List (Nat × List String)) (hnd : (idsOf es).Nodup) :
    ∀ (m : Nat) (i : Nat), i ∈ idsOf es →
      (idsOf es).length - 1 - rankOf es i ≤ m →
      ∀ f, (idsOf es).length - 1 - rankOf es i ≤ f → ∀ x,
        (AncOf es x i → (flattenAux (kidsOf es) f [i]).count x = 1) ∧
        (¬ AncOf es x i → (flattenAux (kidsOf es) f [i]).count x = 0) := by
  intro m
  induction m with
  | zero =>
    intro i hi hd f _ x
    have hnil := kidsOf_last_nil es hnd i hi (by omega)
    rw [flattenAux_leaf _ _ _ hnil]
    constructor
    · intro hA
      have hxi : x = i := by
        by_contra hne
        obtain ⟨c, hc, _⟩ := ancOf_kid_exists es i x hA hne
        rw [hnil] at hc
        cases hc
      rw [hxi]
      simp
    · intro hN
      have hxi : x ≠ i := by
        intro hc
        exact hN (hc ▸ Relation.ReflTransGen.refl)
      simp [List.count_cons, hxi]
  | succ m ih =>
    intro i hi hd f hf x
    by_cases hd0 : (idsOf es).length - 1 - rankOf es i = 0
    · have hnil := kidsOf_last_nil es hnd i hi hd0
      rw [flattenAux_leaf _ _ _ hnil]
      constructor
      · intro hA
        have hxi : x = i := by
          by_contra hne
          obtain ⟨c, hc, _⟩ := ancOf_kid_exists es i x hA hne
          rw [hnil] at hc
          cases hc
        rw [hxi]
        simp
      · intro hN
        have hxi : x ≠ i := by
          intro hc
          exact hN (hc ▸ Relation.ReflTransGen.refl)
        simp [List.count_cons, hxi]
    · cases f with
      | zero => omega
      | succ g =>
        rw [flattenAux_singleton, flattenAux_flatMap _ g]
        have hkid : ∀ c ∈ kidsOf es i,
            (AncOf es x c → (flattenAux (kidsOf es) g [c]).count x = 1) ∧
            (¬ AncOf es x c → (flattenAux (kidsOf es) g [c]).count x = 0) := by
          intro c hc
          obtain ⟨hlt, hcm, _⟩ := kidsOf_rank es hnd i c hc
          have hcl : rankOf es c < (idsOf es).length := List.indexOf_lt_length.mpr hcm
          exact ih c hcm (by omega) g (by omega) x
        rw [List.count_cons, count_flatMap]
        constructor
        · intro hA
          by_cases hxi : x = i
          · have hz : ((kidsOf es i).map
                (fun c => (flattenAux (kidsOf es) g [c]).count x)).sum = 0 := by
              apply List.sum_eq_zero
              intro y hy
              obtain ⟨c, hc, rfl⟩ := List.mem_map.mp hy
              refine (hkid c hc).2 ?_
              intro hanc
              obtain ⟨hlt, _, _⟩ := kidsOf_rank es hnd i c hc
              have := ancOf_rank es hnd x c hanc
              rw [hxi] at this
              omega
            rw [hz, hxi]
            simp
          · obtain ⟨c0, hc0, hanc0⟩ := ancOf_kid_exists es i x hA hxi
            have hsum : ((kidsOf es i).map
                (fun c => (flattenAux (kidsOf es) g [c]).count x)).sum = 1 := by
              refine sum_map_single _ _ (kidsOf_nodup es hnd i) c0 hc0
                ((hkid c0 hc0).1 hanc0) ?_
              intro c hc hne
              refine (hkid c hc).2 ?_
              intro hanc
              exact hne (ancOf_kid_unique es hnd x i c c0 hc hc0 hanc hanc0)
            rw [hsum]
            have : ¬(i == x) = true := by
              intro hc
              exact hxi (beq_iff_eq.mp hc).symm
            simp [this]
        · intro hN
          have hxi : x ≠ i := by
            intro hc
            exact hN (hc ▸ Relation.ReflTransGen.refl)
          have hz : ((kidsOf es i).map
              (fun c => (flattenAux (kidsOf es) g [c]).count x)).sum = 0 := by
            apply List.sum_eq_zero
            intro y hy
            obtain ⟨c, hc, rfl⟩ := List.mem_map.mp hy
            refine (hkid c hc).2 ?_
            intro hanc
            have hstep : stepOf es c i := (mem_kidsOf es i c).mp hc
            exact hN (Relation.ReflTransGen.tail hanc hstep)
          rw [hz]
          have : ¬(i == x) = true := by
            intro hc
            exact hxi (beq_iff_eq.mp hc).symm
          simp [this]

end RepoCtr

namespace RepoCtr

/-- Roots are processed projects. -/
theorem rootsOf_subset_ids (es : List (Nat × List String)) (r : Nat)
    (hr : r ∈ rootsOf es) : r ∈ idsOf es := by
  rw [mem_rootsOf] at hr
  rw [← plOf_map_fst]
  exact List.mem_map_of_mem Prod.fst hr

/-- Ancestry starts at a processed project or stays put. -/
theorem ancOf_mem_left (es : List (Nat × List String)) (x r : Nat)
    (h : AncOf es x r) (hne : x ∉ idsOf es) : x = r := by
  rcases h.cases_head with heq | ⟨y, hy, _⟩
  · exact heq
  · exact absurd (stepOf_mem_left es x y hy) hne

/-- Flattening the built forest with full fuel visits every processed
project exactly once: it is a permutation of the processing order. -/
theorem forest_perm (es : List (Nat × List String)) (hnd : (idsOf es).Nodup) :
    (flattenAux (kidsOf es) (idsOf es).length (rootsOf es)).Perm (idsOf es) := by
  rw [List.perm_iff_count]
  intro x
  rw [flattenAux_flatMap, count_flatMap]
  by_cases hx : x ∈ idsOf es
  · obtain ⟨r0, hr0, hanc0⟩ := ancOf_root_exists es hnd x hx
    have hr0m : r0 ∈ idsOf es := rootsOf_subset_ids es r0 hr0
    have hr0lt : rankOf es r0 < (idsOf es).length := List.indexOf_lt_length.mpr hr0m
    have hone : (flattenAux (kidsOf es) (idsOf es).length [r0]).count x = 1 :=
      (flattenAux_count es hnd (idsOf es).length r0 hr0m (by omega)
        (idsOf es).length (by omega) x).1 hanc0
    have hsum : ((rootsOf es).map
        (fun r => (flattenAux (kidsOf es) (idsOf es).length [r]).count x)).sum = 1 := by
      refine sum_map_single _ _ (rootsOf_nodup es hnd) r0 hr0 hone ?_
      intro r hr hne
      have hrm : r ∈ idsOf es := rootsOf_subset_ids es r hr
      have hrlt : rankOf es r < (idsOf es).length := List.indexOf_lt_length.mpr hrm
      refine (flattenAux_count es hnd (idsOf es).length r hrm (by omega)
        (idsOf es).length (by omega) x).2 ?_
      intro hanc
      exact hne (ancOf_root_unique es hnd x r r0 hr hr0 hanc hanc0)
    rw [hsum, List.count_eq_one_of_mem hnd hx]
  · have hz : ((rootsOf es).map
        (fun r => (flattenAux (kidsOf es) (idsOf es).length [r]).count x)).sum = 0 := by
      apply List.sum_eq_zero
      intro y hy
      obtain ⟨r, hr, rfl⟩ := List.mem_map.mp hy
      have hrm : r ∈ idsOf es := rootsOf_subset_ids es r hr
      have hrlt : rankOf es r < (idsOf es).length := List.indexOf_lt_length.mpr hrm
      refine (flattenAux_count es hnd (idsOf es).length r hrm (by omega)
        (idsOf es).length (by omega) x).2 ?_
      intro hanc
      exact hx ((ancOf_mem_left es x r hanc hx) ▸ hrm)
    rw [hz, List.count_eq_zero.mpr hx]

/-- A descendant's full-fuel subtree is a sublist of each of its
ancestors' subtrees. -/
theorem subtree_anc_sublist (es : List (Nat × List String)) (hnd : (idsOf es).Nodup)
    (b : Nat) : ∀ a, AncOf es a b → a ∈ idsOf es →
      List.Sublist (flattenAux (kidsOf es) (idsOf es).length [a])
        (flattenAux (kidsOf es) (idsOf es).length [b]) := by
  intro a hanc
  induction hanc using Relation.ReflTransGen.head_induction_on with
  | refl => intro _; exact List.Sublist.refl _
  | head hstep htail ih =>
    intro hs
    rename_i s y
    have hym : y ∈ idsOf es := stepOf_mem_right es hnd s y hstep
    have hsk : s ∈ kidsOf es y := (mem_kidsOf es y s).mpr hstep
    have hslt : rankOf es s < (idsOf es).length := List.indexOf_lt_length.mpr hs
    obtain ⟨g, hg⟩ : ∃ g, (idsOf es).length = g + 1 := ⟨(idsOf es).length - 1, by omega⟩
    have hstab : flattenAux (kidsOf es) g [s] = flattenAux (kidsOf es) (idsOf es).length [s] :=
      flattenAux_fuel_stable es hnd (idsOf es).length s hs (by omega) g (idsOf es).length
        (by omega) (by omega)
    have hsub1 : List.Sublist (flattenAux (kidsOf es) (idsOf es).length [s])
        (flattenAux (kidsOf es) (idsOf es).length [y]) := by
      conv_rhs => rw [hg]
      rw [flattenAux_singleton, flattenAux_flatMap (kidsOf es) g (kidsOf es y)]
      refine List.Sublist.cons y ?_
      rw [← hstab]
      exact mem_flatMap_sublist (kidsOf es y) (fun i => flattenAux (kidsOf es) g [i]) s hsk
    exact hsub1.trans (ih hym)

/-- Every parent precedes each of its children in the flattened output:
the pair is a (not necessarily contiguous) sublist. -/
theorem forest_parent_child (es : List (Nat × List String)) (hnd : (idsOf es).Nodup)
    (j i : Nat) (hij : i ∈ kidsOf es j) :
    List.Sublist [j, i]
      (flattenAux (kidsOf es) (idsOf es).length (rootsOf es)) := by
  obtain ⟨hlt, him, hjm⟩ := kidsOf_rank es hnd j i hij
  have hilt : rankOf es i < (idsOf es).length := List.indexOf_lt_length.mpr him
  obtain ⟨g, hg⟩ : ∃ g, (idsOf es).length = g + 1 := ⟨(idsOf es).length - 1, by omega⟩
  have hpair : List.Sublist [j, i] (flattenAux (kidsOf es) (idsOf es).length [j]) := by
    conv_rhs => rw [hg]
    rw [flattenAux_singleton, flattenAux_flatMap]
    refine List.Sublist.cons₂ j ?_
    exact (head_sublist_flattenAux (kidsOf es) g i).trans
      (mem_flatMap_sublist (kidsOf es j) (fun c => flattenAux (kidsOf es) g [c]) i hij)
  obtain ⟨r0, hr0, hancj⟩ := ancOf_root_exists es hnd j hjm
  have htree : List.Sublist (flattenAux (kidsOf es) (idsOf es).length [j])
      (flattenAux (kidsOf es) (idsOf es).length (rootsOf es)) := by
    rw [flattenAux_flatMap _ _ (rootsOf es)]
    exact (subtree_anc_sublist es hnd r0 j hancj hjm).trans
      (mem_flatMap_sublist (rootsOf es)
        (fun c => flattenAux (kidsOf es) (idsOf es).length [c]) r0 hr0)
  exact hpair.trans htree

end RepoCtr

namespace RepoCtr

/-- The order-preserving projection of the parent assignment: of two
selected projects, the one processed first appears first, splitting the
selection around it. -/
theorem filterMap_fst_order (P : Nat × Option Nat → Prop) [DecidablePred P] :
    ∀ (pl : List (Nat × Option Nat)) (a b : Nat), (pl.map Prod.fst).Nodup →
      a ∈ pl.filterMap (fun x => if P x then some x.1 else none) →
      b ∈ pl.filterMap (fun x => if P x then some x.1 else none) →
      (pl.map Prod.fst).indexOf a < (pl.map Prod.fst).indexOf b →
      ∃ u v, pl.filterMap (fun x => if P x then some x.1 else none) = u ++ a :: v ∧
        b ∈ v := by
  intro pl
  induction pl with
  | nil =>
    intro a b _ ha _ _
    exact absurd ha (List.not_mem_nil a)
  | cons x xs ih =>
    intro a b hnd ha hb hidx
    rw [List.map_cons, List.nodup_cons] at hnd
    rw [List.filterMap_cons] at ha hb ⊢
    by_cases hp : P x
    · simp only [if_pos hp] at ha hb ⊢
      by_cases hax : a = x.1
      · refine ⟨[], xs.filterMap (fun y => if P y then some y.1 else none), by simp [hax], ?_⟩
        have hbx : b ≠ x.1 := by
          intro hc
          rw [List.map_cons, hc, List.indexOf_cons_self] at hidx
          omega
        rcases List.mem_cons.mp hb with hbh | hbt
        · exact absurd hbh hbx
        · exact hbt
      · have hbx : b ≠ x.1 := by
          intro hc
          rw [List.map_cons, hc, List.indexOf_cons_self] at hidx
          omega
        have hat : a ∈ xs.filterMap (fun y => if P y then some y.1 else none) := by
          rcases List.mem_cons.mp ha with hah | hat
          · exact absurd hah hax
          · exact hat
        have hbt : b ∈ xs.filterMap (fun y => if P y then some y.1 else none) := by
          rcases List.mem_cons.mp hb with hbh | hbt
          · exact absurd hbh hbx
          · exact hbt
        have hidx2 : (xs.map Prod.fst).indexOf a < (xs.map Prod.fst).indexOf b := by
          rw [List.map_cons, List.indexOf_cons_ne _ (fun h => hax h.symm),
            List.indexOf_cons_ne _ (fun h => hbx h.symm)] at hidx
          omega
        obtain ⟨u, v, heq, hbv⟩ := ih a b hnd.2 hat hbt hidx2
        exact ⟨x.1 :: u, v, by rw [heq, List.cons_append], hbv⟩
    · simp only [if_neg hp] at ha hb ⊢
      have hsub := filterMap_fst_sublist P xs
      have hax : a ≠ x.1 := by
        intro hc
        exact hnd.1 (hc ▸ hsub.subset ha)
      have hbx : b ≠ x.1 := by
        intro hc
        exact hnd.1 (hc ▸ hsub.subset hb)
      have hidx2 : (xs.map Prod.fst).indexOf a < (xs.map Prod.fst).indexOf b := by
        rw [List.map_cons, List.indexOf_cons_ne _ (fun h => hax h.symm),
          List.indexOf_cons_ne _ (fun h => hbx h.symm)] at hidx
        omega
      exact ih a b hnd.2 ha hb hidx2

/-- An ordered pair of level members yields an ordered pair in the
concatenation of the level's subtrees. -/
theorem flatMap_order_sublist (es : List (Nat × List String)) (f : Nat)
    (u v : List Nat) (a b : Nat) (hbv : b ∈ v) :
    List.Sublist [a, b]
      ((u ++ a :: v).flatMap (fun i => flattenAux (kidsOf es) f [i])) := by
  rw [List.flatMap_append, List.flatMap_cons]
  have h1 : List.Sublist [a] (flattenAux (kidsOf es) f [a]) :=
    head_sublist_flattenAux (kidsOf es) f a
  have h2 : List.Sublist [b] (v.flatMap (fun i => flattenAux (kidsOf es) f [i])) :=
    (head_sublist_flattenAux (kidsOf es) f b).trans
      (mem_flatMap_sublist v (fun i => flattenAux (kidsOf es) f [i]) b hbv)
  exact ((u.flatMap (fun i => flattenAux (kidsOf es) f [i])).nil_sublist).append
    (h1.append h2)

/-- Siblings under one parent appear in the flattened output in their
processing order. -/
theorem forest_sibling_kids (es : List (Nat × List String)) (hnd : (idsOf es).Nodup)
    (j a b : Nat) (ha : a ∈ kidsOf es j) (hb : b ∈ kidsOf es j)
    (hr : rankOf es a < rankOf es b) :
    List.Sublist [a, b]
      (flattenAux (kidsOf es) (idsOf es).length (rootsOf es)) := by
  obtain ⟨hjlt, ham, hjm⟩ := kidsOf_rank es hnd j a ha
  have halt : rankOf es a < (idsOf es).length := List.indexOf_lt_length.mpr ham
  obtain ⟨g, hg⟩ : ∃ g, (idsOf es).length = g + 1 := ⟨(idsOf es).length - 1, by omega⟩
  have hplnd : ((plOf es).map Prod.fst).Nodup := by rw [plOf_map_fst]; exact hnd
  have hidx : ((plOf es).map Prod.fst).indexOf a < ((plOf es).map Prod.fst).indexOf b := by
    rw [plOf_map_fst]
    exact hr
  obtain ⟨u, v, heq, hbv⟩ := filterMap_fst_order (fun x => x.2 = some j) (plOf es) a b
    hplnd ha hb hidx
  have hpair : List.Sublist [a, b] (flattenAux (kidsOf es) (idsOf es).length [j]) := by
    conv_rhs => rw [hg]
    rw [flattenAux_singleton, flattenAux_flatMap (kidsOf es) g (kidsOf es j)]
    refine List.Sublist.cons j ?_
    have : kidsOf es j = u ++ a :: v := heq
    rw [this]
    exact flatMap_order_sublist es g u v a b hbv
  obtain ⟨r0, hr0, hancj⟩ := ancOf_root_exists es hnd j hjm
  have htree : List.Sublist (flattenAux (kidsOf es) (idsOf es).length [j])
      (flattenAux (kidsOf es) (idsOf es).length (rootsOf es)) := by
    rw [flattenAux_flatMap _ _ (rootsOf es)]
    exact (subtree_anc_sublist es hnd r0 j hancj hjm).trans
      (mem_flatMap_sublist (rootsOf es)
        (fun c => flattenAux (kidsOf es) (idsOf es).length [c]) r0 hr0)
  exact hpair.trans htree

/-- Root projects appear in the flattened output in their processing
order. -/
theorem forest_sibling_roots (es : List (Nat × List String)) (hnd : (idsOf es).Nodup)
    (a b : Nat) (ha : a ∈ rootsOf es) (hb : b ∈ rootsOf es)
    (hr : rankOf es a < rankOf es b) :
    List.Sublist [a, b]
      (flattenAux (kidsOf es) (idsOf es).length (rootsOf es)) := by
  have hplnd : ((plOf es).map Prod.fst).Nodup := by rw [plOf_map_fst]; exact hnd
  have hidx : ((plOf es).map Prod.fst).indexOf a < ((plOf es).map Prod.fst).indexOf b := by
    rw [plOf_map_fst]
    exact hr
  obtain ⟨u, v, heq, hbv⟩ := filterMap_fst_order (fun x => x.2 = none) (plOf es) a b
    hplnd ha hb hidx
  rw [flattenAux_flatMap _ _ (rootsOf es)]
  have : rootsOf es = u ++ a :: v := heq
  rw [this]
  exact flatMap_order_sublist es (idsOf es).length u v a b hbv

end RepoCtr

namespace RepoCtr

/-- The processing position `Build` gives a project: its index in the
depth-then-path sorted entry list. -/
def buildRank (ps : List (List String)) (i : Nat) : Nat :=
  ((sortEntries ps.enum).map Prod.fst).indexOf i

/-- C1 (amended): for pairwise distinct clean project paths,
`Flatten(Build(list))` is a permutation of the input projects in which
every parent precedes each of its children; the relative order of
siblings — children of one parent, or roots — is their relative order in
`Build`'s depth-then-lexicographic processing order (`buildRank`), not
their relative order in the input list. -/
theorem c1_flatten_build_order (ps : List (List String))
    (_hclean : ∀ p ∈ ps, CleanPath p)
    (_hdist : (ps.map pathStr).Nodup) :
    (hierarchyFlatten (hierarchyBuild (fun _ => []) ps) ps.length).Perm
        (List.range ps.length) ∧
    (∀ j i, i ∈ (hierarchyBuild (fun _ => []) ps).kids j →
      List.Sublist [j, i]
        (hierarchyFlatten (hierarchyBuild (fun _ => []) ps) ps.length)) ∧
    (∀ j a b, a ∈ (hierarchyBuild (fun _ => []) ps).kids j →
      b ∈ (hierarchyBuild (fun _ => []) ps).kids j →
      buildRank ps a < buildRank ps b →
      List.Sublist [a, b]
        (hierarchyFlatten (hierarchyBuild (fun _ => []) ps) ps.length)) ∧
    (∀ a b, a ∈ (hierarchyBuild (fun _ => []) ps).roots →
      b ∈ (hierarchyBuild (fun _ => []) ps).roots →
      buildRank ps a < buildRank ps b →
      List.Sublist [a, b]
        (hierarchyFlatten (hierarchyBuild (fun _ => []) ps) ps.length)) := by
  have hperm : (sortEntries ps.enum).Perm ps.enum := insSortBy_perm _ _
  have hidperm : (idsOf (sortEntries ps.enum)).Perm (List.range ps.length) := by
    have h := hperm.map Prod.fst
    rw [List.enum_map_fst] at h
    exact h
  have hnd : (idsOf (sortEntries ps.enum)).Nodup :=
    hidperm.nodup_iff.mpr (List.nodup_range ps.length)
  have hlen : (idsOf (sortEntries ps.enum)).length = ps.length := by
    have h1 : (idsOf (sortEntries ps.enum)).length = (sortEntries ps.enum).length :=
      List.length_map _ _
    have h2 := hperm.length_eq
    rw [List.enum_length] at h2
    omega
  have hkids : (hierarchyBuild (fun _ => []) ps).kids = kidsOf (sortEntries ps.enum) := by
    funext j
    show (buildRun (fun _ => []) (sortEntries ps.enum)).kids j = _
    rw [buildRun_kids]
    simp
  have hroots : (hierarchyBuild (fun _ => []) ps).roots = rootsOf (sortEntries ps.enum) :=
    buildRun_roots _ _
  have hout : hierarchyFlatten (hierarchyBuild (fun _ => []) ps) ps.length =
      flattenAux (kidsOf (sortEntries ps.enum)) (idsOf (sortEntries ps.enum)).length
        (rootsOf (sortEntries ps.enum)) := by
    unfold hierarchyFlatten
    rw [hkids, hroots, hlen]
  refine ⟨?_, ?_, ?_, ?_⟩
  · rw [hout]
    exact (forest_perm _ hnd).trans hidperm
  · intro j i hij
    rw [hkids] at hij
    rw [hout]
    exact forest_parent_child _ hnd j i hij
  · intro j a b haj hbj hr
    rw [hkids] at haj hbj
    rw [hout]
    exact forest_sibling_kids _ hnd j a b haj hbj hr
  · intro a b haj hbj hr
    rw [hroots] at haj hbj
    rw [hout]
    exact forest_sibling_roots _ hnd a b haj hbj hr

end RepoCtr

namespace RepoCtr

/-- C1 counterexample to the literal claim: the input list with paths
`b` then `a` (both clean, distinct, trivially acyclic) produces two
sibling roots, yet `Flatten(Build(list))` emits project 1 before
project 0 — sibling order follows `Build`'s sorted processing order, not
the input order. -/
theorem c1_counterexample :
    (∀ p ∈ [["b"], ["a"]], CleanPath p) ∧
    (([["b"], ["a"]] : List (List String)).map pathStr).Nodup ∧
    (hierarchyBuild (fun _ => []) [["b"], ["a"]]).roots = [1, 0] ∧
    hierarchyFlatten (hierarchyBuild (fun _ => []) [["b"], ["a"]]) 2 = [1, 0] ∧
    ¬ List.Sublist [0, 1]
      (hierarchyFlatten (hierarchyBuild (fun _ => []) [["b"], ["a"]]) 2) := by
  decide

/-- C1 witness: the spec's monorepo example — root, `packages`,
`packages/lib-a`, `packages/lib-b`, `apps/frontend` — flattens to a
permutation with the root first, parents before children, and siblings in
sorted processing order. -/
theorem c1_witness :
    (hierarchyFlatten (hierarchyBuild (fun _ => [])
      [[], ["packages"], ["packages", "lib-a"], ["packages", "lib-b"],
        ["apps", "frontend"]]) 5).Perm (List.range 5) ∧
    List.Sublist [0, 1] (hierarchyFlatten (hierarchyBuild (fun _ => [])
      [[], ["packages"], ["packages", "lib-a"], ["packages", "lib-b"],
        ["apps", "frontend"]]) 5) ∧
    List.Sublist [2, 3] (hierarchyFlatten (hierarchyBuild (fun _ => [])
      [[], ["packages"], ["packages", "lib-a"], ["packages", "lib-b"],
        ["apps", "frontend"]]) 5) ∧
    List.Sublist [1, 4] (hierarchyFlatten (hierarchyBuild (fun _ => [])
      [[], ["packages"], ["packages", "lib-a"], ["packages", "lib-b"],
        ["apps", "frontend"]]) 5) := by
  obtain ⟨h1, h2, h3, _⟩ := c1_flatten_build_order
    [[], ["packages"], ["packages", "lib-a"], ["packages", "lib-b"], ["apps", "frontend"]]
    (by decide) (by decide)
  exact ⟨h1, h2 0 1 (by decide), h3 1 2 3 (by decide) (by decide) (by decide),
    h3 0 1 4 (by decide) (by decide) (by decide)⟩

end RepoCtr
